import Mathlib

/-!
# Merkle DAG: binary codec, hashing and recursive persistence

A shallow embedding of `dag.go`, `file.go` and `hash_pool.go`.  Byte slices and
Go strings are lists of bytes, Go `int` values are integers, a fixed-width
conversion is an explicit reduction modulo `2^32`.
-/

namespace MerkleDag

/-- Go `[]byte` (and the bytes of a Go `string`). -/
abbrev Bytes := List UInt8

/-! ## crypto/sha256 (FIPS 180-4), the digest behind `sha256.New()` -/

namespace Sha256

/-- The 64 round constants. -/
def K : List Nat :=
  [0x428a2f98, 0x71374491, 0xb5c0fbcf, 0xe9b5dba5, 0x3956c25b, 0x59f111f1, 0x923f82a4, 0xab1c5ed5,
   0xd807aa98, 0x12835b01, 0x243185be, 0x550c7dc3, 0x72be5d74, 0x80deb1fe, 0x9bdc06a7, 0xc19bf174,
   0xe49b69c1, 0xefbe4786, 0x0fc19dc6, 0x240ca1cc, 0x2de92c6f, 0x4a7484aa, 0x5cb0a9dc, 0x76f988da,
   0x983e5152, 0xa831c66d, 0xb00327c8, 0xbf597fc7, 0xc6e00bf3, 0xd5a79147, 0x06ca6351, 0x14292967,
   0x27b70a85, 0x2e1b2138, 0x4d2c6dfc, 0x53380d13, 0x650a7354, 0x766a0abb, 0x81c2c92e, 0x92722c85,
   0xa2bfe8a1, 0xa81a664b, 0xc24b8b70, 0xc76c51a3, 0xd192e819, 0xd6990624, 0xf40e3585, 0x106aa070,
   0x19a4c116, 0x1e376c08, 0x2748774c, 0x34b0bcb5, 0x391c0cb3, 0x4ed8aa4a, 0x5b9cca4f, 0x682e6ff3,
   0x748f82ee, 0x78a5636f, 0x84c87814, 0x8cc70208, 0x90befffa, 0xa4506ceb, 0xbef9a3f7, 0xc67178f2]

/-- Addition of 32-bit words. -/
def add32 (x y : Nat) : Nat := (x + y) % 4294967296

/-- Rotate a 32-bit word right by `n` bits. -/
def rotr (x n : Nat) : Nat := ((x >>> n) ||| (x <<< (32 - n))) % 4294967296

def ch (x y z : Nat) : Nat := (x &&& y) ^^^ ((x ^^^ 4294967295) &&& z)

def maj (x y z : Nat) : Nat := (x &&& y) ^^^ (x &&& z) ^^^ (y &&& z)

def bsig0 (x : Nat) : Nat := rotr x 2 ^^^ rotr x 13 ^^^ rotr x 22

def bsig1 (x : Nat) : Nat := rotr x 6 ^^^ rotr x 11 ^^^ rotr x 25

def ssig0 (x : Nat) : Nat := rotr x 7 ^^^ rotr x 18 ^^^ (x >>> 3)

def ssig1 (x : Nat) : Nat := rotr x 17 ^^^ rotr x 19 ^^^ (x >>> 10)

/-- The eight working variables `a..h` (also the chaining value). -/
structure Vars where
  a : Nat
  b : Nat
  c : Nat
  d : Nat
  e : Nat
  f : Nat
  g : Nat
  h : Nat
deriving DecidableEq, Repr

/-- The initial hash value. -/
def init : Vars :=
  ⟨0x6a09e667, 0xbb67ae85, 0x3c6ef372, 0xa54ff53a, 0x510e527f, 0x9b05688c, 0x1f83d9ab, 0x5be0cd19⟩

/-- One compression round with round constant `k` and schedule word `w`. -/
def round (k w : Nat) (v : Vars) : Vars :=
  let t1 := add32 (add32 (add32 (add32 v.h (bsig1 v.e)) (ch v.e v.f v.g)) k) w
  let t2 := add32 (bsig0 v.a) (maj v.a v.b v.c)
  ⟨add32 t1 t2, v.a, v.b, v.c, add32 v.d t1, v.e, v.f, v.g⟩

/-- Big-endian 32-bit words of a byte block. -/
def words : Bytes → List Nat
  | b0 :: b1 :: b2 :: b3 :: rest =>
    (((b0.toNat * 256 + b1.toNat) * 256 + b2.toNat) * 256 + b3.toNat) :: words rest
  | _ => []

/-- Slide the 16-word schedule window: drop `W[t-16]`, append `W[t]`. -/
def slide : List Nat → List Nat
  | w0 :: w1 :: w2 :: w3 :: w4 :: w5 :: w6 :: w7 :: w8 :: w9 :: w10 :: w11 :: w12 :: w13 ::
      w14 :: w15 :: _ =>
    [w1, w2, w3, w4, w5, w6, w7, w8, w9, w10, w11, w12, w13, w14, w15,
      add32 (add32 (add32 (ssig1 w14) w9) (ssig0 w1)) w0]
  | w => w

/-- The 64 rounds over a sliding schedule window whose head is the current word. -/
def rounds : List Nat → List Nat → Vars → Vars
  | [], _, v => v
  | k :: ks, w, v => rounds ks (slide w) (round k (w.headD 0) v)

/-- Compress one 64-byte block into the chaining value. -/
def compress (cv : Vars) (block : Bytes) : Vars :=
  let v := rounds K (words block) cv
  ⟨add32 cv.a v.a, add32 cv.b v.b, add32 cv.c v.c, add32 cv.d v.d,
   add32 cv.e v.e, add32 cv.f v.f, add32 cv.g v.g, add32 cv.h v.h⟩

/-- Big-endian bytes of a 32-bit word. -/
def wordBytes (x : Nat) : Bytes :=
  [UInt8.ofNat (x / 16777216 % 256), UInt8.ofNat (x / 65536 % 256),
   UInt8.ofNat (x / 256 % 256), UInt8.ofNat (x % 256)]

/-- Message padding: `0x80`, zeros up to 56 mod 64, then the bit length as 64 bits. -/
def pad (msg : Bytes) : Bytes :=
  let n := msg.length
  let bits := n * 8
  msg ++ [128] ++ List.replicate ((119 - n % 64) % 64) 0 ++
    wordBytes (bits / 4294967296 % 4294967296) ++ wordBytes (bits % 4294967296)

/-- Fold the compression function over the 64-byte blocks of a padded message. -/
def blocks : Nat → Vars → Bytes → Vars
  | 0, cv, _ => cv
  | n + 1, cv, bs => blocks n (compress cv (bs.take 64)) (bs.drop 64)

/-- The SHA-256 digest of a message (32 bytes). -/
def sum256 (msg : Bytes) : Bytes :=
  let p := pad msg
  let v := blocks (p.length / 64) init p
  wordBytes v.a ++ wordBytes v.b ++ wordBytes v.c ++ wordBytes v.d ++
    wordBytes v.e ++ wordBytes v.f ++ wordBytes v.g ++ wordBytes v.h

end Sha256

/-! ## crypto/sha512 (FIPS 180-4), the digest behind `sha512.New()` -/

namespace Sha512

/-- The 80 round constants. -/
def K : List Nat :=
  [0x428a2f98d728ae22, 0x7137449123ef65cd, 0xb5c0fbcfec4d3b2f, 0xe9b5dba58189dbbc,
   0x3956c25bf348b538, 0x59f111f1b605d019, 0x923f82a4af194f9b, 0xab1c5ed5da6d8118,
   0xd807aa98a3030242, 0x12835b0145706fbe, 0x243185be4ee4b28c, 0x550c7dc3d5ffb4e2,
   0x72be5d74f27b896f, 0x80deb1fe3b1696b1, 0x9bdc06a725c71235, 0xc19bf174cf692694,
   0xe49b69c19ef14ad2, 0xefbe4786384f25e3, 0x0fc19dc68b8cd5b5, 0x240ca1cc77ac9c65,
   0x2de92c6f592b0275, 0x4a7484aa6ea6e483, 0x5cb0a9dcbd41fbd4, 0x76f988da831153b5,
   0x983e5152ee66dfab, 0xa831c66d2db43210, 0xb00327c898fb213f, 0xbf597fc7beef0ee4,
   0xc6e00bf33da88fc2, 0xd5a79147930aa725, 0x06ca6351e003826f, 0x142929670a0e6e70,
   0x27b70a8546d22ffc, 0x2e1b21385c26c926, 0x4d2c6dfc5ac42aed, 0x53380d139d95b3df,
   0x650a73548baf63de, 0x766a0abb3c77b2a8, 0x81c2c92e47edaee6, 0x92722c851482353b,
   0xa2bfe8a14cf10364, 0xa81a664bbc423001, 0xc24b8b70d0f89791, 0xc76c51a30654be30,
   0xd192e819d6ef5218, 0xd69906245565a910, 0xf40e35855771202a, 0x106aa07032bbd1b8,
   0x19a4c116b8d2d0c8, 0x1e376c085141ab53, 0x2748774cdf8eeb99, 0x34b0bcb5e19b48a8,
   0x391c0cb3c5c95a63, 0x4ed8aa4ae3418acb, 0x5b9cca4f7763e373, 0x682e6ff3d6b2b8a3,
   0x748f82ee5defb2fc, 0x78a5636f43172f60, 0x84c87814a1f0ab72, 0x8cc702081a6439ec,
   0x90befffa23631e28, 0xa4506cebde82bde9, 0xbef9a3f7b2c67915, 0xc67178f2e372532b,
   0xca273eceea26619c, 0xd186b8c721c0c207, 0xeada7dd6cde0eb1e, 0xf57d4f7fee6ed178,
   0x06f067aa72176fba, 0x0a637dc5a2c898a6, 0x113f9804bef90dae, 0x1b710b35131c471b,
   0x28db77f523047d84, 0x32caab7b40c72493, 0x3c9ebe0a15c9bebc, 0x431d67c49c100d4c,
   0x4cc5d4becb3e42b6, 0x597f299cfc657e2a, 0x5fcb6fab3ad6faec, 0x6c44198c4a475817]

/-- Addition of 64-bit words. -/
def add64 (x y : Nat) : Nat := (x + y) % 18446744073709551616

/-- Rotate a 64-bit word right by `n` bits. -/
def rotr (x n : Nat) : Nat := ((x >>> n) ||| (x <<< (64 - n))) % 18446744073709551616

def ch (x y z : Nat) : Nat := (x &&& y) ^^^ ((x ^^^ 18446744073709551615) &&& z)

def maj (x y z : Nat) : Nat := (x &&& y) ^^^ (x &&& z) ^^^ (y &&& z)

def bsig0 (x : Nat) : Nat := rotr x 28 ^^^ rotr x 34 ^^^ rotr x 39

def bsig1 (x : Nat) : Nat := rotr x 14 ^^^ rotr x 18 ^^^ rotr x 41

def ssig0 (x : Nat) : Nat := rotr x 1 ^^^ rotr x 8 ^^^ (x >>> 7)

def ssig1 (x : Nat) : Nat := rotr x 19 ^^^ rotr x 61 ^^^ (x >>> 6)

/-- The initial hash value. -/
def init : Sha256.Vars :=
  ⟨0x6a09e667f3bcc908, 0xbb67ae8584caa73b, 0x3c6ef372fe94f82b, 0xa54ff53a5f1d36f1,
   0x510e527fade682d1, 0x9b05688c2b3e6c1f, 0x1f83d9abfb41bd6b, 0x5be0cd19137e2179⟩

/-- One compression round with round constant `k` and schedule word `w`. -/
def round (k w : Nat) (v : Sha256.Vars) : Sha256.Vars :=
  let t1 := add64 (add64 (add64 (add64 v.h (bsig1 v.e)) (ch v.e v.f v.g)) k) w
  let t2 := add64 (bsig0 v.a) (maj v.a v.b v.c)
  ⟨add64 t1 t2, v.a, v.b, v.c, add64 v.d t1, v.e, v.f, v.g⟩

/-- Big-endian 64-bit words of a byte block. -/
def words : Bytes → List Nat
  | b0 :: b1 :: b2 :: b3 :: b4 :: b5 :: b6 :: b7 :: rest =>
    (((((((b0.toNat * 256 + b1.toNat) * 256 + b2.toNat) * 256 + b3.toNat) * 256 +
      b4.toNat) * 256 + b5.toNat) * 256 + b6.toNat) * 256 + b7.toNat) :: words rest
  | _ => []

/-- Slide the 16-word schedule window: drop `W[t-16]`, append `W[t]`. -/
def slide : List Nat → List Nat
  | w0 :: w1 :: w2 :: w3 :: w4 :: w5 :: w6 :: w7 :: w8 :: w9 :: w10 :: w11 :: w12 :: w13 ::
      w14 :: w15 :: _ =>
    [w1, w2, w3, w4, w5, w6, w7, w8, w9, w10, w11, w12, w13, w14, w15,
      add64 (add64 (add64 (ssig1 w14) w9) (ssig0 w1)) w0]
  | w => w

/-- The 80 rounds over a sliding schedule window whose head is the current word. -/
def rounds : List Nat → List Nat → Sha256.Vars → Sha256.Vars
  | [], _, v => v
  | k :: ks, w, v => rounds ks (slide w) (round k (w.headD 0) v)

/-- Compress one 128-byte block into the chaining value. -/
def compress (cv : Sha256.Vars) (block : Bytes) : Sha256.Vars :=
  let v := rounds K (words block) cv
  ⟨add64 cv.a v.a, add64 cv.b v.b, add64 cv.c v.c, add64 cv.d v.d,
   add64 cv.e v.e, add64 cv.f v.f, add64 cv.g v.g, add64 cv.h v.h⟩

/-- Big-endian bytes of a 64-bit word. -/
def wordBytes (x : Nat) : Bytes :=
  Sha256.wordBytes (x / 4294967296 % 4294967296) ++ Sha256.wordBytes (x % 4294967296)

/-- Message padding: `0x80`, zeros up to 112 mod 128, then the bit length as 128 bits. -/
def pad (msg : Bytes) : Bytes :=
  let n := msg.length
  let bits := n * 8
  msg ++ [128] ++ List.replicate ((239 - n % 128) % 128) 0 ++
    wordBytes (bits / 18446744073709551616 % 18446744073709551616) ++
    wordBytes (bits % 18446744073709551616)

/-- Fold the compression function over the 128-byte blocks of a padded message. -/
def blocks : Nat → Sha256.Vars → Bytes → Sha256.Vars
  | 0, cv, _ => cv
  | n + 1, cv, bs => blocks n (compress cv (bs.take 128)) (bs.drop 128)

/-- The SHA-512 digest of a message (64 bytes). -/
def sum512 (msg : Bytes) : Bytes :=
  let p := pad msg
  let v := blocks (p.length / 128) init p
  wordBytes v.a ++ wordBytes v.b ++ wordBytes v.c ++ wordBytes v.d ++
    wordBytes v.e ++ wordBytes v.f ++ wordBytes v.g ++ wordBytes v.h

end Sha512

/-! ## Data model (`dag.go`, `file.go`) -/

/-- `type Link struct { Name string; Hash []byte; Size int }`. -/
structure Link where
  Name : Bytes
  Hash : Bytes
  Size : Int
deriving DecidableEq, Repr

/-- `type Object struct { Links []Link; Data []byte }`. -/
structure Object where
  Links : List Link
  Data : Bytes
deriving DecidableEq, Repr

/-- A value implementing the `File` interface: only `Name()` and `Data()` are read. -/
structure File where
  Name : Bytes
  Data : Bytes
deriving DecidableEq, Repr

mutual
/-- A value of interface type `Node`, by the case the type switch of `saveNode` selects. -/
inductive Node where
  | file (f : File)
  | dir (d : Dir)
  | unknown (Name : Bytes) (goType : String)
/-- A value implementing `Dir`: its name and the nodes its iterator `It()` yields, in order. -/
inductive Dir where
  | mk (Name : Bytes) (It : List Node)
end

def Dir.Name : Dir → Bytes
  | .mk name _ => name

def Dir.It : Dir → List Node
  | .mk _ it => it

def Node.Name : Node → Bytes
  | .file f => f.Name
  | .dir d => d.Name
  | .unknown name _ => name

/-- An error a buffer write could report. -/
inductive WriteFault where
  | fault
deriving DecidableEq, Repr

/-- Go `error` values reaching `saveNode`: what `Put` returned, the `fmt.Errorf` of the
default case, or a fault of `MarshalBinary`. -/
inductive Error (ε : Type) where
  | put (e : ε)
  | unknownNodeType (goType : String)
  | marshal (e : WriteFault)
deriving DecidableEq, Repr

/-- Modelled from the spec: the `KVStore` interface, whose declaration is not among the
source files, is the Store Adapter `put(key: bytes, value: bytes) -> error`; a store is a
state `σ` with a `Put` that gives the next state and the error, if any. -/
structure KVStore (σ ε : Type) where
  Put : σ → Bytes → Bytes → σ × Option ε

/-! ## Binary codec: `Object.MarshalBinary` -/

/-- Go conversion `int32(x)`: the low 32 bits read as two's complement. -/
def int32 (x : Int) : Int := (x + 2147483648) % 4294967296 - 2147483648

/-- Go conversion `uint32(v)`. -/
def uint32 (v : Int) : Nat := (v % 4294967296).toNat

/-- `binary.BigEndian.PutUint32`. -/
def putUint32 (u : Nat) : Bytes :=
  [UInt8.ofNat (u / 16777216 % 256), UInt8.ofNat (u / 65536 % 256),
   UInt8.ofNat (u / 256 % 256), UInt8.ofNat (u % 256)]

/-- `bytes.Buffer.Write` / `WriteString`: append to the buffer; the error is always nil. -/
def bufferWrite (buf p : Bytes) : Bytes × Option WriteFault := (buf ++ p, none)

/-- `binary.Write(&buf, binary.BigEndian, v)` for a value `v` of type `int32`. -/
def binaryWrite (buf : Bytes) (v : Int) : Bytes × Option WriteFault :=
  bufferWrite buf (putUint32 (uint32 v))

/-- The body of `for _, link := range o.Links`, threading the buffer. -/
def marshalLinks : Bytes → List Link → Bytes × Option WriteFault
  | buf, [] => (buf, none)
  | buf, link :: rest =>
    match binaryWrite buf (int32 link.Name.length) with
    | (_, some err) => ([], some err)
    | (buf, none) =>
    match bufferWrite buf link.Name with
    | (_, some err) => ([], some err)
    | (buf, none) =>
    match binaryWrite buf (int32 link.Hash.length) with
    | (_, some err) => ([], some err)
    | (buf, none) =>
    match bufferWrite buf link.Hash with
    | (_, some err) => ([], some err)
    | (buf, none) =>
    match binaryWrite buf (int32 link.Size) with
    | (_, some err) => ([], some err)
    | (buf, none) => marshalLinks buf rest

/-- `func (o *Object) MarshalBinary() ([]byte, error)`. -/
def MarshalBinary (o : Object) : Bytes × Option WriteFault :=
  match binaryWrite [] (int32 o.Links.length) with
  | (_, some err) => ([], some err)
  | (buf, none) =>
  match marshalLinks buf o.Links with
  | (_, some err) => ([], some err)
  | (buf, none) =>
  match binaryWrite buf (int32 o.Data.length) with
  | (_, some err) => ([], some err)
  | (buf, none) =>
  match bufferWrite buf o.Data with
  | (_, some err) => ([], some err)
  | (buf, none) => (buf, none)

/-! ## Hashing -/

/-- A value of the interface `hash.Hash`: the digest function its implementation computes
and the bytes written since the last `Reset`. -/
structure Hasher where
  digest : Bytes → Bytes
  written : Bytes

/-- `sha256.New()`, the hasher the pool constructs. -/
def sha256New : Hasher := ⟨Sha256.sum256, []⟩

/-- `sha512.New()`, another implementation of `hash.Hash`. -/
def sha512New : Hasher := ⟨Sha512.sum512, []⟩

/-- `h.Reset()`. -/
def Hasher.Reset (h : Hasher) : Hasher := ⟨h.digest, []⟩

/-- `h.Write(p)`. -/
def Hasher.Write (h : Hasher) (p : Bytes) : Hasher := ⟨h.digest, h.written ++ p⟩

/-- `h.Sum(b)`: append the digest of what was written to `b`; the state is unchanged. -/
def Hasher.Sum (h : Hasher) (b : Bytes) : Bytes := b ++ h.digest h.written

/-- `func hashData(data []byte) []byte`. -/
def hashData (data : Bytes) : Bytes :=
  let h := sha256New
  let h := h.Write data
  h.Sum []

/-- `func combineHashes(h hash.Hash, hash1, hash2 []byte) []byte`, with the hasher after
the call. -/
def combineHashes (h : Hasher) (hash1 hash2 : Bytes) : Bytes × Hasher :=
  let h := h.Reset
  let h := h.Write hash1
  let h := h.Write hash2
  (h.Sum [], h)

/-! ## Merkle root: `buildMerkleTree` -/

/-- `for len(hashes) > 1 && len(hashes)%2 != 0 { hashes = append(hashes, nil) }`. -/
def padLoop : Nat → List Bytes → List Bytes
  | 0, hashes => hashes
  | fuel + 1, hashes =>
    if hashes.length > 1 ∧ hashes.length % 2 ≠ 0 then padLoop fuel (hashes ++ [[]])
    else hashes

/-- `for i := 0; i < len(hashes); i += 2 { ... }` over the remaining slice `hashes[i:]`:
`left` is declared and never assigned, `right` is `hashes[i+1]` when it exists. -/
def pairLoop : List Bytes → Hasher → List Bytes → List Bytes × Hasher
  | [], h, newLevel => (newLevel, h)
  | [_], h, newLevel =>
    let left : Bytes := []
    let right : Bytes := []
    let (combined, h) := combineHashes h left right
    (newLevel ++ [combined], h)
  | _ :: next :: rest, h, newLevel =>
    let left : Bytes := []
    let right : Bytes := next
    let (combined, h) := combineHashes h left right
    pairLoop rest h (newLevel ++ [combined])

/-- `for len(hashes) > 1 { ...; hashes = newLevel }`. -/
def levelLoop : Nat → List Bytes → Hasher → List Bytes × Hasher
  | 0, hashes, h => (hashes, h)
  | fuel + 1, hashes, h =>
    if hashes.length > 1 then
      let (newLevel, h) := pairLoop hashes h []
      levelLoop fuel newLevel h
    else (hashes, h)

/-- `func buildMerkleTree(hashes [][]byte, h hash.Hash) []byte`, with the hasher after the
call.  Both loops get the slice length as fuel. -/
def buildMerkleTree (hashes : List Bytes) (h : Hasher) : Bytes × Hasher :=
  if hashes.length = 0 then ([], h)
  else
    let hashes := padLoop hashes.length hashes
    let (hashes, h) := levelLoop hashes.length hashes h
    (hashes.headD [], h)

/-! ## Recursive persistence -/

/-- `func saveFile(store KVStore, file File) ([]byte, error)`. -/
def saveFile {σ ε : Type} (store : KVStore σ ε) (s : σ) (file : File) :
    σ × Bytes × Option (Error ε) :=
  let data := file.Data
  let hash := hashData data
  match store.Put s hash data with
  | (s, some err) => (s, [], some (.put err))
  | (s, none) => (s, hash, none)

mutual
/-- `func saveNode(store KVStore, n Node) ([]byte, error)`. -/
def saveNode {σ ε : Type} (store : KVStore σ ε) (s : σ) : Node → σ × Bytes × Option (Error ε)
  | .file node => saveFile store s node
  | .dir node => saveDir store s node
  | .unknown _ goType => (s, [], some (.unknownNodeType goType))
/-- `func saveDir(store KVStore, dir Dir) ([]byte, error)`. -/
def saveDir {σ ε : Type} (store : KVStore σ ε) (s : σ) : Dir → σ × Bytes × Option (Error ε)
  | .mk _ it =>
    match saveChildren store s [] it with
    | (s, _, some err) => (s, [], some err)
    | (s, links, none) =>
      let obj : Object := { Links := links, Data := [] }
      match MarshalBinary obj with
      | (_, some err) => (s, [], some (.marshal err))
      | (data, none) =>
        let hash := hashData data
        match store.Put s hash data with
        | (s, some err) => (s, [], some (.put err))
        | (s, none) => (s, hash, none)
/-- The loop `for iter.Next() { child := iter.Node(); ... }` of `saveDir`. -/
def saveChildren {σ ε : Type} (store : KVStore σ ε) (s : σ) (links : List Link) :
    List Node → σ × List Link × Option (Error ε)
  | [] => (s, links, none)
  | child :: rest =>
    match saveNode store s child with
    | (s, _, some err) => (s, [], some err)
    | (s, childHash, none) =>
      saveChildren store s
        (links ++ [{ Name := child.Name, Hash := childHash, Size := childHash.length }]) rest
end

/-- `func Add(store KVStore, node Node, h hash.Hash) []byte`, with the store and the hasher
after the call. -/
def Add {σ ε : Type} (store : KVStore σ ε) (s : σ) (node : Node) (h : Hasher) :
    σ × Hasher × Bytes :=
  let nodeHashes : List Bytes := []
  match saveNode store s node with
  | (s, rootHash, _) =>
    let nodeHashes := nodeHashes ++ [rootHash]
    let (merkleRoot, h) := buildMerkleTree nodeHashes h
    (s, h, merkleRoot)

/-! ## The wire format in the words of the specification -/

namespace Spec

/-- Fixed-width big-endian 32-bit signed integer: the four bytes of the two's-complement
representation of the value reduced to 32 bits, most significant byte first. -/
def int32BE (n : Int) : Bytes :=
  let u := (n % 4294967296).toNat
  [UInt8.ofNat (u / 16777216 % 256), UInt8.ofNat (u / 65536 % 256),
   UInt8.ofNat (u / 256 % 256), UInt8.ofNat (u % 256)]

/-- One link: name length, name, hash length, hash, size. -/
def encodeLink (l : Link) : Bytes :=
  int32BE l.Name.length ++ l.Name ++ int32BE l.Hash.length ++ l.Hash ++ int32BE l.Size

/-- The layout: link count, the links in list order, data length, data. -/
def encode (o : Object) : Bytes :=
  int32BE o.Links.length ++ (o.Links.map encodeLink).flatten ++ int32BE o.Data.length ++
    o.Data

/-- Read a big-endian int32 off the front of the input. -/
def readInt32 : Bytes → Option (Int × Bytes)
  | b0 :: b1 :: b2 :: b3 :: rest =>
    let u := ((b0.toNat * 256 + b1.toNat) * 256 + b2.toNat) * 256 + b3.toNat
    some (if u < 2147483648 then (u : Int) else (u : Int) - 4294967296, rest)
  | _ => none

/-- Read a length-prefixed byte field. -/
def readBytes (bs : Bytes) : Option (Bytes × Bytes) :=
  match readInt32 bs with
  | none => none
  | some (n, rest) =>
    if 0 ≤ n ∧ n.toNat ≤ rest.length then some (rest.take n.toNat, rest.drop n.toNat)
    else none

/-- Read one link. -/
def readLink (bs : Bytes) : Option (Link × Bytes) :=
  match readBytes bs with
  | none => none
  | some (name, bs) =>
  match readBytes bs with
  | none => none
  | some (hash, bs) =>
  match readInt32 bs with
  | none => none
  | some (size, bs) => some ({ Name := name, Hash := hash, Size := size }, bs)

/-- Read `n` links. -/
def readLinks : Nat → Bytes → Option (List Link × Bytes)
  | 0, bs => some ([], bs)
  | n + 1, bs =>
    match readLink bs with
    | none => none
    | some (l, bs) =>
    match readLinks n bs with
    | none => none
    | some (ls, bs) => some (l :: ls, bs)

/-- A decoder for the layout: link count, links, length-prefixed data, nothing after. -/
def decode (bs : Bytes) : Option Object :=
  match readInt32 bs with
  | none => none
  | some (n, bs) =>
  if n < 0 then none
  else
  match readLinks n.toNat bs with
  | none => none
  | some (links, bs) =>
  match readBytes bs with
  | none => none
  | some (data, bs) => if bs = [] then some { Links := links, Data := data } else none

end Spec

/-- A link whose lengths and Size fit the signed 32-bit fields. -/
def Link.WellFormed (l : Link) : Prop :=
  l.Name.length < 2147483648 ∧ l.Hash.length < 2147483648 ∧
    -2147483648 ≤ l.Size ∧ l.Size < 2147483648

instance (l : Link) : Decidable l.WellFormed := by
  unfold Link.WellFormed; infer_instance

/-- An Object whose link count, lengths and Sizes fit the signed 32-bit fields. -/
def Object.WellFormed (o : Object) : Prop :=
  o.Links.length < 2147483648 ∧ (∀ l ∈ o.Links, l.WellFormed) ∧ o.Data.length < 2147483648

instance (o : Object) : Decidable o.WellFormed := by
  unfold Object.WellFormed; infer_instance

/-! ## Stores and sample values -/

/-- A store that also keeps the list of every `Put` call it received, in order. -/
def recording {σ ε : Type} (store : KVStore σ ε) : KVStore (σ × List (Bytes × Bytes)) ε where
  Put := fun s key value =>
    match store.Put s.1 key value with
    | (s1, err) => ((s1, s.2 ++ [(key, value)]), err)

/-- A store whose every `Put` fails with the error `e` and leaves the state alone. -/
def failingStore {ε : Type} (e : ε) : KVStore Unit ε where
  Put := fun s _ _ => (s, some e)

/-- A store that accepts a `Put` unless the key is in its list of refused keys. -/
def refusingStore : KVStore (List Bytes) String where
  Put := fun refused key _ =>
    (refused, if key ∈ refused then some "refused" else none)

/-- An Object with one link and three bytes of data. -/
def sampleObject : Object :=
  { Links := [{ Name := [97], Hash := [1, 2], Size := 2 }], Data := [7, 8, 9] }

/-- The same Object with another link Size. -/
def sampleObject2 : Object :=
  { Links := [{ Name := [97], Hash := [1, 2], Size := 3 }], Data := [7, 8, 9] }

/-- An Object with one empty link of Size 0. -/
def sizeZero : Object := { Links := [{ Name := [], Hash := [], Size := 0 }], Data := [] }

/-- An Object with one empty link of Size `2^32` (a value of the 64-bit Go `int`). -/
def sizeWrapped : Object :=
  { Links := [{ Name := [], Hash := [], Size := 4294967296 }], Data := [] }

/-- A file named "f" with content "hi". -/
def sampleFile : File := { Name := [102], Data := [104, 105] }

/-- Persisting the nodes `cs` one after the other from store state `s` succeeds for each
of them, with hashes `hs`, and leaves the store in state `s1`. -/
def ChildrenSaved {σ ε : Type} (store : KVStore σ ε) : σ → List Node → List Bytes → σ → Prop
  | s, [], [], s1 => s1 = s
  | s, c :: cs, h :: hs, s1 =>
    (saveNode store s c).2.2 = none ∧ (saveNode store s c).2.1 = h ∧
      ChildrenSaved store (saveNode store s c).1 cs hs s1
  | _, _, _, _ => False

instance ChildrenSaved.decidable {σ ε : Type} [DecidableEq σ] [DecidableEq ε]
    (store : KVStore σ ε) :
    ∀ (s : σ) (cs : List Node) (hs : List Bytes) (s1 : σ),
      Decidable (ChildrenSaved store s cs hs s1)
  | s, [], [], s1 => by unfold ChildrenSaved; infer_instance
  | s, c :: cs, h :: hs, s1 => by
    unfold ChildrenSaved
    have := ChildrenSaved.decidable store (saveNode store s c).1 cs hs s1
    infer_instance
  | _, [], _ :: _, _ => by unfold ChildrenSaved; infer_instance
  | _, _ :: _, [], _ => by unfold ChildrenSaved; infer_instance

/-- The links `saveDir` builds from children and their hashes:
`Link{Name: child.Name(), Hash: childHash, Size: len(childHash)}`. -/
def childLinks (cs : List Node) (hs : List Bytes) : List Link :=
  List.zipWith (fun c h => { Name := c.Name, Hash := h, Size := h.length }) cs hs

/-- Bytes of an ASCII string. -/
def ascii (s : String) : Bytes := s.toList.map fun c => UInt8.ofNat c.toNat

/-- Modelled from the spec: the Store Adapter as a finite map from key to value that
starts empty as `[]`; `put` always succeeds and a re-put of a key replaces its entry. -/
def mapStore : KVStore (List (Bytes × Bytes)) String where
  Put := fun m key value => (m.filter (fun e => e.1 ≠ key) ++ [(key, value)], none)

/-- A directory "d" holding the one file `sampleFile`. -/
def sampleDir : Dir := .mk [100] [.file sampleFile]

/-- The encoded Object of `sampleDir`. -/
def sampleDirBytes : Bytes :=
  (MarshalBinary
    { Links := [{ Name := [102], Hash := hashData [104, 105],
                  Size := (hashData [104, 105]).length }],
      Data := [] }).1

/-- Directory "root" with file "a.txt" = "hello" and file "b.txt" = "world", in this order. -/
def helloWorld : Node :=
  .dir (.mk (ascii "root")
    [.file { Name := ascii "a.txt", Data := ascii "hello" },
     .file { Name := ascii "b.txt", Data := ascii "world" }])

/-- The encoded directory Object of `helloWorld`. -/
def helloWorldBytes : Bytes :=
  (MarshalBinary
    { Links :=
        [{ Name := ascii "a.txt", Hash := hashData (ascii "hello"),
           Size := (hashData (ascii "hello")).length },
         { Name := ascii "b.txt", Hash := hashData (ascii "world"),
           Size := (hashData (ascii "world")).length }],
      Data := [] }).1

/-! ## The traversal as a list of writes -/

/-- A store that also keeps, for every `Put` call it received, the key, the value and the
error the call returned, in order. -/
def logging {σ ε : Type} (store : KVStore σ ε) :
    KVStore (σ × List (Bytes × Bytes × Option ε)) ε where
  Put := fun s key value =>
    match store.Put s.1 key value with
    | (s1, err) => ((s1, s.2 ++ [(key, value, err)]), err)

/-- A store whose every `Put` succeeds. -/
def acceptingStore (ε : Type) : KVStore Unit ε where
  Put := fun s _ _ => (s, none)

/-- Issue the writes of a list in order, stopping at the first `Put` that fails. -/
def runPuts {σ ε : Type} (store : KVStore σ ε) : σ → List (Bytes × Bytes) → σ × Option ε
  | s, [] => (s, none)
  | s, (key, value) :: rest =>
    match store.Put s key value with
    | (s1, some err) => (s1, some err)
    | (s1, none) => runPuts store s1 rest

/-- The calls `runPuts` makes, with the error each returned. -/
def putLog {σ ε : Type} (store : KVStore σ ε) :
    σ → List (Bytes × Bytes) → List (Bytes × Bytes × Option ε)
  | _, [] => []
  | s, (key, value) :: rest =>
    match store.Put s key value with
    | (_, some err) => [(key, value, some err)]
    | (s1, none) => (key, value, none) :: putLog store s1 rest

mutual
/-- The writes a traversal of the node issues while every `Put` succeeds, depth first and
children before parent, up to the first node of unknown type, and what the traversal then
returns: the hash of the node, or the Go type of that unknown node. -/
def nodePlan : Node → List (Bytes × Bytes) × Except String Bytes
  | .file f => ([(hashData f.Data, f.Data)], .ok (hashData f.Data))
  | .dir d => dirPlan d
  | .unknown _ goType => ([], .error goType)
/-- The plan of a directory: the plans of its children, then the directory object. -/
def dirPlan : Dir → List (Bytes × Bytes) × Except String Bytes
  | .mk _ it =>
    match childrenPlan [] it with
    | (ws, .error goType) => (ws, .error goType)
    | (ws, .ok links) =>
      (ws ++ [(hashData (MarshalBinary { Links := links, Data := [] }).1,
               (MarshalBinary { Links := links, Data := [] }).1)],
        .ok (hashData (MarshalBinary { Links := links, Data := [] }).1))
/-- The plan of a list of children, accumulating their links. -/
def childrenPlan (links : List Link) : List Node → List (Bytes × Bytes) × Except String (List Link)
  | [] => ([], .ok links)
  | child :: rest =>
    match nodePlan child with
    | (ws, .error goType) => (ws, .error goType)
    | (ws, .ok childHash) =>
      match childrenPlan
          (links ++ [{ Name := child.Name, Hash := childHash, Size := childHash.length }])
          rest with
      | (ws2, r) => (ws ++ ws2, r)
end

/-- What `saveNode` returns after the writes of a plan were issued. -/
def finish {σ ε : Type} : σ × Option ε → Except String Bytes → σ × Bytes × Option (Error ε)
  | (s, some err), _ => (s, [], some (.put err))
  | (s, none), .ok hash => (s, hash, none)
  | (s, none), .error goType => (s, [], some (.unknownNodeType goType))

/-- What the child loop of `saveDir` returns after the writes of a plan were issued. -/
def finishLinks {σ ε : Type} :
    σ × Option ε → Except String (List Link) → σ × List Link × Option (Error ε)
  | (s, some err), _ => (s, [], some (.put err))
  | (s, none), .ok links => (s, links, none)
  | (s, none), .error goType => (s, [], some (.unknownNodeType goType))

/-- Directory "top" holding directory "sub" holding the file `sampleFile`. -/
def nestedTree : Node := .dir (.mk [116, 111, 112] [.dir (.mk [115, 117, 98] [.file sampleFile])])

/-! ## The stored objects in the words of the specification -/

namespace Spec

mutual
/-- The hash that identifies a node: the digest of the raw bytes of a file, the digest of
the encoded Object of a directory. -/
def nodeHash : Node → Bytes
  | .file f => hashData f.Data
  | .dir d => dirHash d
  | .unknown _ _ => []
/-- The hash of a directory: the digest of its encoded Object. -/
def dirHash : Dir → Bytes
  | .mk _ it => hashData (encode { Links := links it, Data := [] })
/-- One link per child, in iteration order: its name, its hash, the length of its hash. -/
def links : List Node → List Link
  | [] => []
  | child :: rest =>
    { Name := child.Name, Hash := nodeHash child, Size := (nodeHash child).length } ::
      links rest
end

mutual
/-- One store entry per node of a tree, children before their parent: a file under the
digest of its content, a directory under the digest of its encoded Object. -/
def writes : Node → List (Bytes × Bytes)
  | .file f => [(hashData f.Data, f.Data)]
  | .dir d => dirWrites d
  | .unknown _ _ => []
/-- The entries of a directory: those of its children, then its own. -/
def dirWrites : Dir → List (Bytes × Bytes)
  | .mk name it =>
    childrenWrites it ++
      [(dirHash (.mk name it), encode { Links := links it, Data := [] })]
/-- The entries of a list of children, in order. -/
def childrenWrites : List Node → List (Bytes × Bytes)
  | [] => []
  | child :: rest => writes child ++ childrenWrites rest
end

end Spec

/-- A directory "d" holding the file `sampleFile` and then a node of an unknown type. -/
def mixedDir : Dir := .mk [100] [.file sampleFile, .unknown [117] "*main.Symlink"]

/-- A file named "g" with the content of `sampleFile`. -/
def sampleFileCopy : File := { Name := [103], Data := [104, 105] }

/-! ## The hasher pool (`hash_pool.go`) -/

/-- `type SimpleHashPool struct { pool sync.Pool }`: the hashers the pool holds. -/
structure SimpleHashPool where
  pool : List Hasher

/-- `func NewSimpleHashPool() *SimpleHashPool`: an empty pool whose `New` is `sha256.New`. -/
def NewSimpleHashPool : SimpleHashPool := ⟨[]⟩

/-- `func (h *SimpleHashPool) Get() hash.Hash`: `sync.Pool.Get` takes an item out of the pool
(`pick = some i` selects the held item at index `i`) or treats the pool as empty and calls
`New` (`pick = none`, or nothing held at that index).  The item is returned as it is. -/
def SimpleHashPool.Get (p : SimpleHashPool) (pick : Option Nat) : Hasher × SimpleHashPool :=
  match pick with
  | none => (sha256New, p)
  | some i =>
    match p.pool[i]? with
    | some hasher => (hasher, ⟨p.pool.eraseIdx i⟩)
    | none => (sha256New, p)

/-- `func (h *SimpleHashPool) Put(hasher hash.Hash)`: `sync.Pool.Put` keeps the item as it
is. -/
def SimpleHashPool.Put (p : SimpleHashPool) (hasher : Hasher) : SimpleHashPool :=
  ⟨hasher :: p.pool⟩

/-- One operation on a pool: a `Get` with the choice the pool makes, or a `Put` of a
hasher in whatever state the caller left it. -/
inductive PoolOp where
  | get (pick : Option Nat)
  | put (hasher : Hasher)

/-- The hashers the `Get` calls of a sequence of operations return, in order. -/
def runPool : SimpleHashPool → List PoolOp → List Hasher
  | _, [] => []
  | p, .get pick :: ops => (p.Get pick).1 :: runPool (p.Get pick).2 ops
  | p, .put hasher :: ops => runPool (p.Put hasher) ops

/-- The hashers the `Put` calls of a sequence of operations hand back. -/
def putsOf : List PoolOp → List Hasher
  | [] => []
  | .get _ :: ops => putsOf ops
  | .put hasher :: ops => hasher :: putsOf ops

/-- Directory children "a" = "x" and "b" = "y", and the same two in the other order. -/
def twoFiles : List Node :=
  [.file { Name := [97], Data := [120] }, .file { Name := [98], Data := [121] }]

/-- The children of `twoFiles` in the other order. -/
def twoFilesSwapped : List Node :=
  [.file { Name := [98], Data := [121] }, .file { Name := [97], Data := [120] }]

/-! # Theorems -/

set_option maxRecDepth 100000

/-! ## Codec -/

theorem uint32_int32 (x : Int) : uint32 (int32 x) = (x % 4294967296).toNat := by
  unfold uint32 int32
  congr 1
  omega

theorem binaryWrite_int32 (buf : Bytes) (x : Int) :
    binaryWrite buf (int32 x) = (buf ++ Spec.int32BE x, none) := by
  simp [binaryWrite, bufferWrite, uint32_int32, putUint32, Spec.int32BE]

theorem marshalLinks_eq (links : List Link) (buf : Bytes) :
    marshalLinks buf links = (buf ++ (links.map Spec.encodeLink).flatten, none) := by
  induction links generalizing buf with
  | nil => simp [marshalLinks]
  | cons l rest ih =>
    simp [marshalLinks, binaryWrite_int32, bufferWrite, ih, Spec.encodeLink,
      List.append_assoc]

theorem MarshalBinary_eq (o : Object) : MarshalBinary o = (Spec.encode o, none) := by
  simp [MarshalBinary, binaryWrite_int32, bufferWrite, marshalLinks_eq, Spec.encode,
    List.append_assoc]

/-- C1: `MarshalBinary` returns no error on every Object, and its bytes are the link count,
then per link in list order the name length, name, hash length, hash and Size, then the
data length and the data, every integer as a big-endian int32. -/
theorem C1_MarshalBinary_layout (o : Object) :
    (MarshalBinary o).2 = none ∧
    (MarshalBinary o).1 =
      Spec.int32BE o.Links.length ++
        (o.Links.map fun l =>
          Spec.int32BE l.Name.length ++ l.Name ++ Spec.int32BE l.Hash.length ++ l.Hash ++
            Spec.int32BE l.Size).flatten ++
        Spec.int32BE o.Data.length ++ o.Data := by
  rw [MarshalBinary_eq]
  exact ⟨rfl, rfl⟩

theorem UInt8_ofNat_toNat (n : Nat) : (UInt8.ofNat n).toNat = n % 256 := rfl

theorem readInt32_int32BE (v : Int) (rest : Bytes) (h1 : -2147483648 ≤ v)
    (h2 : v < 2147483648) : Spec.readInt32 (Spec.int32BE v ++ rest) = some (v, rest) := by
  have hu : (((v % 4294967296).toNat : Nat) : Int) = v % 4294967296 := by
    rw [Int.toNat_of_nonneg]; omega
  simp only [Spec.int32BE, Spec.readInt32, List.cons_append, List.nil_append,
    UInt8_ofNat_toNat]
  generalize (v % 4294967296).toNat = u at hu
  have hw : ((u / 16777216 % 256 % 256 * 256 + u / 65536 % 256 % 256) * 256 +
      u / 256 % 256 % 256) * 256 + u % 256 % 256 = u := by omega
  rw [hw]
  congr 2
  split <;> omega

theorem readBytes_field (field rest : Bytes) (h : field.length < 2147483648) :
    Spec.readBytes (Spec.int32BE field.length ++ field ++ rest) = some (field, rest) := by
  rw [Spec.readBytes, List.append_assoc, readInt32_int32BE _ _ (by omega) (by omega)]
  simp

theorem readLink_encodeLink (l : Link) (rest : Bytes) (h : l.WellFormed) :
    Spec.readLink (Spec.encodeLink l ++ rest) = some (l, rest) := by
  obtain ⟨hn, hh, hs1, hs2⟩ := h
  have e : Spec.encodeLink l ++ rest =
      Spec.int32BE l.Name.length ++ l.Name ++
        (Spec.int32BE l.Hash.length ++ l.Hash ++ (Spec.int32BE l.Size ++ rest)) := by
    simp [Spec.encodeLink, List.append_assoc]
  rw [e, Spec.readLink, readBytes_field _ _ hn]
  simp only []
  rw [readBytes_field _ _ hh]
  simp only []
  rw [readInt32_int32BE _ _ hs1 hs2]

theorem readLinks_encode (links : List Link) (rest : Bytes)
    (h : ∀ l ∈ links, l.WellFormed) :
    Spec.readLinks links.length ((links.map Spec.encodeLink).flatten ++ rest) =
      some (links, rest) := by
  induction links with
  | nil => simp [Spec.readLinks]
  | cons l ls ih =>
    have hl := h l (List.mem_cons_self _ _)
    have hls : ∀ x ∈ ls, x.WellFormed := fun x hx => h x (List.mem_cons_of_mem _ hx)
    simp only [List.map_cons, List.flatten_cons, List.length_cons, Spec.readLinks,
      List.append_assoc]
    rw [readLink_encodeLink _ _ hl]
    simp only []
    rw [ih hls]

theorem decode_encode (o : Object) (h : o.WellFormed) : Spec.decode (Spec.encode o) = some o := by
  obtain ⟨hc, hl, hd⟩ := h
  have e : Spec.encode o = Spec.int32BE o.Links.length ++
      ((o.Links.map Spec.encodeLink).flatten ++ (Spec.int32BE o.Data.length ++ o.Data ++ [])) := by
    simp [Spec.encode, List.append_assoc]
  rw [e, Spec.decode, readInt32_int32BE _ _ (by omega) (by omega)]
  simp only [Int.toNat_ofNat]
  rw [if_neg (by omega), readLinks_encode _ _ hl]
  simp only []
  rw [readBytes_field _ _ hd]
  simp

/-- C2 (as stated) fails: two Objects that differ in a link Size by `2^32` have the same
encoding, because Size is written as `int32(link.Size)`. -/
theorem C2_counterexample :
    MarshalBinary sizeZero = MarshalBinary sizeWrapped ∧ sizeZero ≠ sizeWrapped := by
  constructor <;> decide

/-- C2 (amended): for two Objects whose link count, name, hash and data lengths are below
`2^31` and whose link Sizes lie in the signed 32-bit range, the encodings are equal exactly
when the Objects are equal (same links in the same order, same data). -/
theorem C2_MarshalBinary_injective (o1 o2 : Object) (h1 : o1.WellFormed)
    (h2 : o2.WellFormed) : MarshalBinary o1 = MarshalBinary o2 ↔ o1 = o2 := by
  constructor
  · intro h
    have e : Spec.encode o1 = Spec.encode o2 := by
      have := congrArg Prod.fst h
      simpa [MarshalBinary_eq] using this
    have d1 := decode_encode o1 h1
    have d2 := decode_encode o2 h2
    rw [e, d2] at d1
    exact (Option.some.inj d1).symm
  · intro h
    rw [h]

theorem C2_MarshalBinary_injective_witness :
    sampleObject.WellFormed ∧ sampleObject2.WellFormed ∧
      (MarshalBinary sampleObject = MarshalBinary sampleObject2 ↔
        sampleObject = sampleObject2) :=
  ⟨by decide, by decide,
    C2_MarshalBinary_injective sampleObject sampleObject2 (by decide) (by decide)⟩

/-- C3: `Spec.decode` inverts `MarshalBinary` on every Object whose link count and name,
hash and data lengths are below `2^31` and whose link Sizes lie in the signed 32-bit
range: the encoding succeeds and decoding its bytes gives the Object back. -/
theorem C3_decode_MarshalBinary (o : Object) (h : o.WellFormed) :
    (MarshalBinary o).2 = none ∧ Spec.decode (MarshalBinary o).1 = some o := by
  rw [MarshalBinary_eq]
  exact ⟨rfl, decode_encode o h⟩

theorem C3_decode_MarshalBinary_witness :
    sampleObject.WellFormed ∧
      ((MarshalBinary sampleObject).2 = none ∧
        Spec.decode (MarshalBinary sampleObject).1 = some sampleObject) :=
  ⟨by decide, C3_decode_MarshalBinary sampleObject (by decide)⟩

/-! ## Hashing and the Merkle root -/

/-- FIPS 180-4 test vector: the digest of the empty message. -/
theorem sum256_empty :
    Sha256.sum256 [] =
      [0xe3, 0xb0, 0xc4, 0x42, 0x98, 0xfc, 0x1c, 0x14, 0x9a, 0xfb, 0xf4, 0xc8, 0x99, 0x6f,
       0xb9, 0x24, 0x27, 0xae, 0x41, 0xe4, 0x64, 0x9b, 0x93, 0x4c, 0xa4, 0x95, 0x99, 0x1b,
       0x78, 0x52, 0xb8, 0x55] := by
  decide

/-- FIPS 180-4 test vector: the digest of "abc". -/
theorem sum256_abc :
    Sha256.sum256 (ascii "abc") =
      [0xba, 0x78, 0x16, 0xbf, 0x8f, 0x01, 0xcf, 0xea, 0x41, 0x41, 0x40, 0xde, 0x5d, 0xae,
       0x22, 0x23, 0xb0, 0x03, 0x61, 0xa3, 0x96, 0x17, 0x7a, 0x9c, 0xb4, 0x10, 0xff, 0x61,
       0xf2, 0x00, 0x15, 0xad] := by
  decide

/-- FIPS 180-4 test vector (two blocks): the digest of the 56-byte message
"abcdbcdecdefdefgefghfghighijhijkijkljklmklmnlmnomnopnopq". -/
theorem sum256_two_blocks :
    Sha256.sum256 (ascii "abcdbcdecdefdefgefghfghighijhijkijkljklmklmnlmnomnopnopq") =
      [0x24, 0x8d, 0x6a, 0x61, 0xd2, 0x06, 0x38, 0xb8, 0xe5, 0xc0, 0x26, 0x93, 0x0c, 0x3e,
       0x60, 0x39, 0xa3, 0x3c, 0xe4, 0x59, 0x64, 0xff, 0x21, 0x67, 0xf6, 0xec, 0xed, 0xd4,
       0x19, 0xdb, 0x06, 0xc1] := by
  decide

theorem sum256_length (msg : Bytes) : (Sha256.sum256 msg).length = 32 := by
  simp [Sha256.sum256, Sha256.wordBytes]

theorem padLoop_succ (n : Nat) (hashes : List Bytes) :
    padLoop (n + 1) hashes =
      if hashes.length > 1 ∧ hashes.length % 2 ≠ 0 then hashes ++ [[]] else hashes := by
  rw [padLoop]
  split
  · next hc =>
    cases n with
    | zero => rfl
    | succ m =>
      rw [padLoop, if_neg]
      simp only [List.length_append, List.length_singleton]
      omega
  · rfl

theorem pairLoop_length :
    ∀ (hashes : List Bytes) (h : Hasher) (acc : List Bytes),
      (pairLoop hashes h acc).1.length = acc.length + (hashes.length + 1) / 2
  | [], h, acc => by simp [pairLoop]
  | [_], h, acc => by simp [pairLoop]
  | _ :: b :: rest, h, acc => by
    rw [pairLoop]
    simp only []
    rw [pairLoop_length rest]
    simp only [List.length_append, List.length_cons, List.length_nil]
    omega

/-- The level loop leaves its condition false: with the slice length as fuel it ends on a
single hash. -/
theorem levelLoop_length (fuel : Nat) :
    ∀ (hashes : List Bytes) (h : Hasher), hashes ≠ [] → hashes.length ≤ fuel →
      (levelLoop fuel hashes h).1.length = 1 := by
  induction fuel with
  | zero =>
    intro hashes h hne hle
    cases hashes with
    | nil => exact absurd rfl hne
    | cons _ _ => simp at hle
  | succ fuel ih =>
    intro hashes h hne hle
    rw [levelLoop]
    split
    · next hgt =>
      have hl := pairLoop_length hashes h []
      simp only [List.length_nil, Nat.zero_add] at hl
      rcases hp : pairLoop hashes h [] with ⟨newLevel, h1⟩
      rw [hp] at hl
      simp only at hl
      simp only []
      apply ih
      · intro he
        rw [he] at hl
        simp only [List.length_nil] at hl
        omega
      · omega
    · next hgt =>
      cases hashes with
      | nil => exact absurd rfl hne
      | cons a t =>
        simp only [List.length_cons] at hgt ⊢
        omega

/-- Both loops of `buildMerkleTree` run to their exit condition on the fuel they get: the
padded slice has an even length or length one, and the level loop ends on one hash, which
is the value returned. -/
theorem buildMerkleTree_fuel (hashes : List Bytes) (h : Hasher) (hne : hashes ≠ []) :
    ¬ ((padLoop hashes.length hashes).length > 1 ∧
        (padLoop hashes.length hashes).length % 2 ≠ 0) ∧
    (levelLoop (padLoop hashes.length hashes).length (padLoop hashes.length hashes) h).1.length
      = 1 := by
  obtain ⟨n, hn⟩ : ∃ n, hashes.length = n + 1 := by
    cases hashes with
    | nil => exact absurd rfl hne
    | cons a t => exact ⟨t.length, rfl⟩
  rw [hn, padLoop_succ]
  constructor
  · split
    · simp only [List.length_append, List.length_singleton]; omega
    · assumption
  · apply levelLoop_length
    · split
      · simp
      · exact hne
    · exact Nat.le_refl _

theorem combineHashes_fst (h : Hasher) (a b : Bytes) :
    (combineHashes h a b).1 = h.digest (a ++ b) := by
  simp [combineHashes, Hasher.Reset, Hasher.Write, Hasher.Sum]

/-- FIPS 180-4 test vector: the SHA-512 digest of "abc". -/
theorem sum512_abc :
    Sha512.sum512 (ascii "abc") =
      [0xdd, 0xaf, 0x35, 0xa1, 0x93, 0x61, 0x7a, 0xba, 0xcc, 0x41, 0x73, 0x49, 0xae, 0x20,
       0x41, 0x31, 0x12, 0xe6, 0xfa, 0x4e, 0x89, 0xa9, 0x7e, 0xa2, 0x0a, 0x9e, 0xee, 0xe6,
       0x4b, 0x55, 0xd3, 0x9a, 0x21, 0x92, 0x99, 0x2a, 0x27, 0x4f, 0xc1, 0xa8, 0x36, 0xba,
       0x3c, 0x23, 0xa3, 0xfe, 0xeb, 0xbd, 0x45, 0x4d, 0x44, 0x23, 0x64, 0x3c, 0xe8, 0x0e,
       0x2a, 0x9a, 0xc9, 0x4f, 0xa5, 0x4c, 0xa4, 0x9f] := by
  decide

/-- FIPS 180-4 test vector: the SHA-512 digest of the empty message. -/
theorem sum512_empty :
    Sha512.sum512 [] =
      [0xcf, 0x83, 0xe1, 0x35, 0x7e, 0xef, 0xb8, 0xbd, 0xf1, 0x54, 0x28, 0x50, 0xd6, 0x6d,
       0x80, 0x07, 0xd6, 0x20, 0xe4, 0x05, 0x0b, 0x57, 0x15, 0xdc, 0x83, 0xf4, 0xa9, 0x21,
       0xd3, 0x6c, 0xe9, 0xce, 0x47, 0xd0, 0xd1, 0x3c, 0x5d, 0x85, 0xf2, 0xb0, 0xff, 0x83,
       0x18, 0xd2, 0x87, 0x7e, 0xec, 0x2f, 0x63, 0xb9, 0x31, 0xbd, 0x47, 0x41, 0x7a, 0x81,
       0xa5, 0x38, 0x32, 0x7a, 0xf9, 0x27, 0xda, 0x3e] := by
  decide

theorem sum512_length (msg : Bytes) : (Sha512.sum512 msg).length = 64 := by
  simp [Sha512.sum512, Sha512.wordBytes, Sha256.wordBytes]

theorem hashData_eq (data : Bytes) : hashData data = Sha256.sum256 data := by
  simp [hashData, sha256New, Hasher.Write, Hasher.Sum]

/-- C4: on two hashes the code does not return `combineHashes(h, h1, h2)`: `left` is never
assigned, so the root is the digest of `h2` alone, whatever `h1` is; at `h1 = [1]`,
`h2 = [2]` the two values differ. -/
theorem C4_buildMerkleTree_pair :
    (∀ (h1 h2 : Bytes) (h : Hasher),
      (buildMerkleTree [h1, h2] h).1 = (combineHashes h [] h2).1) ∧
    (buildMerkleTree [[1], [2]] sha256New).1 ≠ (combineHashes sha256New [1] [2]).1 := by
  constructor
  · intro h1 h2 h
    simp [buildMerkleTree, padLoop, levelLoop, pairLoop]
  · decide

/-- C5: on three hashes the code does not return
`combine(combine(h1, h2), combine(h3, empty))`: with `left` never assigned the root is the
digest of the digest of the empty input, whatever the three hashes are, for every hasher;
for a SHA-256 hasher in any state that is `hashData(hashData(empty))`; at `[1], [2], [3]`
the two values differ. -/
theorem C5_buildMerkleTree_triple :
    (∀ (h1 h2 h3 : Bytes) (h : Hasher),
      (buildMerkleTree [h1, h2, h3] h).1 = h.digest (h.digest [])) ∧
    (∀ (h1 h2 h3 : Bytes) (h : Hasher), h.digest = Sha256.sum256 →
      (buildMerkleTree [h1, h2, h3] h).1 = hashData (hashData [])) ∧
    (buildMerkleTree [[1], [2], [3]] sha256New).1 ≠
      (combineHashes sha256New (combineHashes sha256New [1] [2]).1
        (combineHashes sha256New [3] []).1).1 := by
  have hgen : ∀ (h1 h2 h3 : Bytes) (h : Hasher),
      (buildMerkleTree [h1, h2, h3] h).1 = h.digest (h.digest []) := by
    intro h1 h2 h3 h
    simp [buildMerkleTree, padLoop, levelLoop, pairLoop, combineHashes,
      Hasher.Reset, Hasher.Write, Hasher.Sum]
  refine ⟨hgen, ?_, by decide⟩
  intro h1 h2 h3 h hsha
  rw [hgen, hsha, hashData_eq, hashData_eq]

/-- C6: on a single hash `x` the result is `x` itself and the hasher is left in the state it
was passed in: no combination is performed. -/
theorem C6_buildMerkleTree_single (x : Bytes) (h : Hasher) :
    buildMerkleTree [x] h = (x, h) := by
  simp [buildMerkleTree, padLoop, levelLoop]

/-- C7 (as stated) fails: `combineHashes` digests with the hasher it is given and
`hashData` with SHA-256; with `h = sha512.New()` the result is the 64-byte SHA-512 digest
of `a ++ b`, not `hashData(a ++ b)`. -/
theorem C7_counterexample :
    (combineHashes sha512New [1] [2]).1 = Sha512.sum512 [1, 2] ∧
    (combineHashes sha512New [1] [2]).1.length = 64 ∧
    (combineHashes sha512New [1] [2]).1 ≠ hashData ([1] ++ [2]) := by
  decide

/-- C7 (amended): for a SHA-256 hasher, whatever it has absorbed before,
`combineHashes(h, a, b)` is the single-shot digest `hashData(a ++ b)`; with `b` empty it is
`hashData(a)`; and the result is the same from every earlier content of the hasher. -/
theorem C7_combineHashes_digest (h : Hasher) (a b : Bytes)
    (hsha : h.digest = Sha256.sum256) :
    (combineHashes h a b).1 = hashData (a ++ b) ∧ (combineHashes h a []).1 = hashData a ∧
    ∀ w : Bytes, (combineHashes ⟨h.digest, w⟩ a b).1 = (combineHashes h a b).1 := by
  refine ⟨?_, ?_, ?_⟩
  · rw [combineHashes_fst, hsha, hashData_eq]
  · rw [combineHashes_fst, hsha, hashData_eq, List.append_nil]
  · intro w
    rw [combineHashes_fst, combineHashes_fst]

theorem C7_combineHashes_digest_witness :
    (sha256New.Write [9, 9]).digest = Sha256.sum256 ∧
      (sha256New.Write [9, 9]).written = [9, 9] ∧
      (combineHashes (sha256New.Write [9, 9]) [1] [2]).1 = hashData ([1] ++ [2]) :=
  ⟨rfl, rfl, (C7_combineHashes_digest (sha256New.Write [9, 9]) [1] [2] rfl).1⟩

/-! ## Persistence -/

/-- C8: `saveFile` issues the single call `Put(hashData(data), data)`: the store ends in the
state that call leaves, the recorded calls are that one call, and the result is the hash
with no error when the call succeeds, no hash and the call's error when it fails. -/
theorem C8_saveFile (σ ε : Type) (store : KVStore σ ε) (s : σ) (f : File) :
    saveFile store s f =
      ((store.Put s (hashData f.Data) f.Data).1,
        match (store.Put s (hashData f.Data) f.Data).2 with
        | none => (hashData f.Data, none)
        | some e => ([], some (Error.put e))) ∧
    (saveFile (recording store) (s, []) f).1.2 = [(hashData f.Data, f.Data)] := by
  constructor
  · unfold saveFile
    rcases hp : store.Put s (hashData f.Data) f.Data with ⟨s1, _ | e⟩ <;> simp [hp]
  · unfold saveFile recording
    rcases hp : store.Put s (hashData f.Data) f.Data with ⟨s1, _ | e⟩ <;> simp [hp]

theorem saveChildren_of_saved {σ ε : Type} (store : KVStore σ ε) (cs : List Node) :
    ∀ (s : σ) (links : List Link) (hs : List Bytes) (s1 : σ),
      ChildrenSaved store s cs hs s1 →
      saveChildren store s links cs = (s1, links ++ childLinks cs hs, none) := by
  induction cs with
  | nil =>
    intro s links hs s1 h
    cases hs with
    | nil => simp [ChildrenSaved] at h; simp [saveChildren, childLinks, h]
    | cons _ _ => simp [ChildrenSaved] at h
  | cons c cs ih =>
    intro s links hs s1 h
    cases hs with
    | nil => simp [ChildrenSaved] at h
    | cons x hs =>
      obtain ⟨he, hx, hrest⟩ := h
      rw [saveChildren]
      rcases hr : saveNode store s c with ⟨s2, y, err⟩
      rw [hr] at he hx hrest
      simp only at he hx hrest
      subst he hx
      simp only []
      rw [ih s2 _ hs s1 hrest]
      simp [childLinks, List.append_assoc]

/-- C9 (as stated) fails: every child of `sampleDir` is persisted, the store refuses the
`Put` of the directory object, and `saveDir` returns an error and no hash instead of
`hashData(encoded)`. -/
theorem C9_counterexample :
    ChildrenSaved refusingStore [hashData sampleDirBytes] sampleDir.It
      [hashData sampleFile.Data] [hashData sampleDirBytes] ∧
    saveDir refusingStore [hashData sampleDirBytes] sampleDir =
      ([hashData sampleDirBytes], [], some (Error.put "refused")) ∧
    (saveDir refusingStore [hashData sampleDirBytes] sampleDir).2.1 ≠
      hashData sampleDirBytes := by
  decide

/-- C9 (amended): when the children of a directory are persisted successfully, one after
the other, with hashes `hs`, `saveDir` encodes the Object with links
`{Name: child.Name(), Hash: h, Size: len(h)}` in iteration order and empty data, calls
`Put(hashData(encoded), encoded)` on the store as the children left it, and returns
`hashData(encoded)` when that `Put` succeeds, its error and no hash when it fails; with no
children the encoded bytes are a zero link count followed by a zero data length. -/
theorem C9_saveDir (σ ε : Type) (store : KVStore σ ε) (s s1 : σ) (d : Dir) (hs : List Bytes)
    (hc : ChildrenSaved store s d.It hs s1) :
    (MarshalBinary { Links := childLinks d.It hs, Data := [] }).2 = none ∧
    saveDir store s d =
      ((store.Put s1
          (hashData (MarshalBinary { Links := childLinks d.It hs, Data := [] }).1)
          (MarshalBinary { Links := childLinks d.It hs, Data := [] }).1).1,
        match (store.Put s1
          (hashData (MarshalBinary { Links := childLinks d.It hs, Data := [] }).1)
          (MarshalBinary { Links := childLinks d.It hs, Data := [] }).1).2 with
        | none => (hashData (MarshalBinary { Links := childLinks d.It hs, Data := [] }).1, none)
        | some e => ([], some (Error.put e))) ∧
    (d.It = [] →
      (MarshalBinary { Links := childLinks d.It hs, Data := [] }).1 =
        [0, 0, 0, 0, 0, 0, 0, 0]) := by
  refine ⟨by rw [MarshalBinary_eq], ?_, ?_⟩
  · cases d with
    | mk name it =>
      simp only [Dir.It] at hc
      rw [saveDir, saveChildren_of_saved store it s [] hs s1 hc]
      simp only [List.nil_append, Dir.It, MarshalBinary_eq]
      rcases hp : store.Put s1 (hashData (Spec.encode { Links := childLinks it hs, Data := [] }))
        (Spec.encode { Links := childLinks it hs, Data := [] }) with ⟨s2, _ | e⟩ <;> rfl
  · intro he
    rw [he]
    simp only [childLinks, List.zipWith_nil_left]
    decide

theorem C9_saveDir_witness :
    ChildrenSaved mapStore [] sampleDir.It [hashData sampleFile.Data]
      [(hashData sampleFile.Data, sampleFile.Data)] ∧
    saveDir mapStore [] sampleDir =
      ([(hashData sampleFile.Data, sampleFile.Data), (hashData sampleDirBytes, sampleDirBytes)],
        hashData sampleDirBytes, none) := by
  have hc : ChildrenSaved mapStore [] sampleDir.It [hashData sampleFile.Data]
      [(hashData sampleFile.Data, sampleFile.Data)] := by decide
  refine ⟨hc, ?_⟩
  rw [(C9_saveDir _ _ mapStore [] _ sampleDir _ hc).2.1]
  decide

theorem buildMerkleTree_one (x : Bytes) (h : Hasher) : buildMerkleTree [x] h = (x, h) := by
  simp [buildMerkleTree, padLoop, levelLoop]

theorem Add_eq {σ ε : Type} (store : KVStore σ ε) (s : σ) (node : Node) (h : Hasher) :
    Add store s node h = ((saveNode store s node).1, h, (saveNode store s node).2.1) := by
  unfold Add
  rcases saveNode store s node with ⟨s1, rootHash, err⟩
  simp [buildMerkleTree_one]

/-- C10: for directory "root" with files "a.txt" = "hello" and "b.txt" = "world", on the
map store started empty, `Add` leaves exactly three entries, under the pairwise distinct
keys `hashData("hello")`, `hashData("world")` and `D = hashData(E)` with values "hello",
"world" and `E`, the encoded directory Object, and returns `D`, for every hasher. -/
theorem C10_hello_world (h : Hasher) :
    (Add mapStore [] helloWorld h).1 =
      [(hashData (ascii "hello"), ascii "hello"), (hashData (ascii "world"), ascii "world"),
       (hashData helloWorldBytes, helloWorldBytes)] ∧
    hashData (ascii "hello") ≠ hashData (ascii "world") ∧
    hashData (ascii "hello") ≠ hashData helloWorldBytes ∧
    hashData (ascii "world") ≠ hashData helloWorldBytes ∧
    (Add mapStore [] helloWorld h).2.2 = hashData helloWorldBytes := by
  rw [Add_eq]
  simp only []
  decide

/-! ## The traversal replays its plan -/

theorem runPuts_append {σ ε : Type} (store : KVStore σ ε) (a b : List (Bytes × Bytes)) :
    ∀ s : σ, runPuts store s (a ++ b) =
      match runPuts store s a with
      | (s1, some err) => (s1, some err)
      | (s1, none) => runPuts store s1 b := by
  induction a with
  | nil => intro s; simp [runPuts]
  | cons x a ih =>
    intro s
    obtain ⟨key, value⟩ := x
    simp only [List.cons_append, runPuts]
    rcases hp : store.Put s key value with ⟨s1, _ | err⟩
    · simp only []; exact ih s1
    · simp only []

mutual
theorem saveNode_plan {σ ε : Type} (store : KVStore σ ε) :
    ∀ (n : Node) (s : σ),
      saveNode store s n = finish (runPuts store s (nodePlan n).1) (nodePlan n).2
  | .file f, s => by
    rw [saveNode, nodePlan, saveFile]
    simp only [runPuts]
    rcases hp : store.Put s (hashData f.Data) f.Data with ⟨s1, _ | err⟩ <;> simp [finish]
  | .dir d, s => by
    rw [saveNode, nodePlan]
    exact saveDir_plan store d s
  | .unknown _ goType, s => by
    simp [saveNode, nodePlan, runPuts, finish]
theorem saveDir_plan {σ ε : Type} (store : KVStore σ ε) :
    ∀ (d : Dir) (s : σ),
      saveDir store s d = finish (runPuts store s (dirPlan d).1) (dirPlan d).2
  | .mk name it, s => by
    rw [saveDir, dirPlan, saveChildren_plan store it s []]
    rcases hc : childrenPlan [] it with ⟨ws, goType | links⟩
    · rcases hr : runPuts store s ws with ⟨s1, _ | err⟩ <;> simp [finishLinks, finish, hr]
    · simp only []
      rw [runPuts_append]
      rcases hr : runPuts store s ws with ⟨s1, _ | err⟩
      · simp only [finishLinks, MarshalBinary_eq, runPuts]
        rcases hp : store.Put s1 (hashData (Spec.encode { Links := links, Data := [] }))
          (Spec.encode { Links := links, Data := [] }) with ⟨s2, _ | err⟩ <;> simp [finish]
      · simp [finishLinks, finish]
theorem saveChildren_plan {σ ε : Type} (store : KVStore σ ε) :
    ∀ (cs : List Node) (s : σ) (links : List Link),
      saveChildren store s links cs =
        finishLinks (runPuts store s (childrenPlan links cs).1) (childrenPlan links cs).2
  | [], s, links => by
    simp [saveChildren, childrenPlan, runPuts, finishLinks]
  | child :: rest, s, links => by
    rw [saveChildren, childrenPlan, saveNode_plan store child s]
    rcases hn : nodePlan child with ⟨ws, goType | childHash⟩
    · rcases hr : runPuts store s ws with ⟨s1, _ | err⟩ <;> simp [finishLinks, finish, hr]
    · simp only []
      rw [runPuts_append]
      rcases hr : runPuts store s ws with ⟨s1, _ | err⟩
      · simp only [finish]
        exact saveChildren_plan store rest s1 _
      · simp [finishLinks, finish]
end

theorem finish_fst {σ ε : Type} (st : σ) (err : Option ε) (r : Except String Bytes) :
    (finish (st, err) r).1 = st := by
  cases err <;> cases r <;> rfl

theorem finish_snd {σ τ ε : Type} (a : σ) (b : τ) (err : Option ε) (r : Except String Bytes) :
    (finish (a, err) r).2 = (finish (b, err) r).2 := by
  cases err <;> cases r <;> rfl

theorem logging_Put {σ ε : Type} (store : KVStore σ ε) (s : σ)
    (log : List (Bytes × Bytes × Option ε)) (key value : Bytes) :
    (logging store).Put (s, log) key value =
      (((store.Put s key value).1, log ++ [(key, value, (store.Put s key value).2)]),
        (store.Put s key value).2) := rfl

theorem runPuts_logging {σ ε : Type} (store : KVStore σ ε) (ws : List (Bytes × Bytes)) :
    ∀ (s : σ) (log : List (Bytes × Bytes × Option ε)),
      runPuts (logging store) (s, log) ws =
        (((runPuts store s ws).1, log ++ putLog store s ws), (runPuts store s ws).2) := by
  induction ws with
  | nil => intro s log; simp [runPuts, putLog]
  | cons x ws ih =>
    intro s log
    obtain ⟨key, value⟩ := x
    rcases hp : store.Put s key value with ⟨s1, _ | err⟩
    · simp only [runPuts, putLog, logging_Put, hp]
      rw [ih]
      simp [List.append_assoc]
    · simp only [runPuts, putLog, logging_Put, hp]

/-- On the logging store `saveNode` does what it does on the store itself, and the calls it
appends to the log are those of replaying the plan. -/
theorem saveNode_logging {σ ε : Type} (store : KVStore σ ε) (n : Node) (s : σ)
    (log : List (Bytes × Bytes × Option ε)) :
    saveNode (logging store) (s, log) n =
      (((saveNode store s n).1, log ++ putLog store s (nodePlan n).1), (saveNode store s n).2) := by
  rw [saveNode_plan (logging store), saveNode_plan store, runPuts_logging]
  rcases hr : runPuts store s (nodePlan n).1 with ⟨s1, err⟩
  refine Prod.ext ?_ ?_
  · rw [finish_fst, finish_fst]
  · exact finish_snd _ _ _ _

theorem putLog_errors {σ ε : Type} (store : KVStore σ ε) (ws : List (Bytes × Bytes)) :
    ∀ s : σ, (putLog store s ws).filterMap (fun c => c.2.2) = (runPuts store s ws).2.toList := by
  induction ws with
  | nil => intro s; simp [putLog, runPuts]
  | cons x ws ih =>
    intro s
    obtain ⟨key, value⟩ := x
    simp only [putLog, runPuts]
    rcases hp : store.Put s key value with ⟨s1, _ | err⟩
    · simpa using ih s1
    · simp

theorem putLog_dropLast {σ ε : Type} (store : KVStore σ ε) (ws : List (Bytes × Bytes)) :
    ∀ s : σ, ∀ c ∈ (putLog store s ws).dropLast, c.2.2 = none := by
  induction ws with
  | nil => intro s c hc; simp [putLog] at hc
  | cons x ws ih =>
    intro s c hc
    obtain ⟨key, value⟩ := x
    simp only [putLog] at hc
    rcases hp : store.Put s key value with ⟨s1, _ | err⟩
    · rw [hp] at hc
      simp only [] at hc
      cases hl : putLog store s1 ws with
      | nil => rw [hl] at hc; simp at hc
      | cons y t =>
        rw [hl, List.dropLast_cons₂] at hc
        rcases List.mem_cons.mp hc with h | h
        · rw [h]
        · exact ih s1 c (by rw [hl]; exact h)
    · rw [hp] at hc
      simp at hc

theorem putLog_prefix {σ ε : Type} (store : KVStore σ ε) (ws : List (Bytes × Bytes)) :
    ∀ s : σ, (putLog store s ws).map (fun c => (c.1, c.2.1)) <+: ws := by
  induction ws with
  | nil => intro s; simp [putLog]
  | cons x ws ih =>
    intro s
    obtain ⟨key, value⟩ := x
    simp only [putLog]
    rcases hp : store.Put s key value with ⟨s1, _ | err⟩
    · simp only [List.map_cons]
      exact (List.prefix_cons_inj _).mpr (ih s1)
    · simp only [List.map_cons, List.map_nil]
      exact (List.prefix_cons_inj _).mpr (List.nil_prefix)

theorem putLog_of_ok {σ ε : Type} (store : KVStore σ ε) (ws : List (Bytes × Bytes)) :
    ∀ s : σ, (runPuts store s ws).2 = none →
      putLog store s ws = ws.map (fun w => (w.1, w.2, none)) := by
  induction ws with
  | nil => intro s _; simp [putLog]
  | cons x ws ih =>
    intro s h
    obtain ⟨key, value⟩ := x
    simp only [putLog, runPuts] at h ⊢
    rcases hp : store.Put s key value with ⟨s1, _ | err⟩
    · rw [hp] at h
      simp only [List.map_cons]
      rw [ih s1 h]
    · rw [hp] at h
      simp at h

theorem saveChildren_append {σ ε : Type} (store : KVStore σ ε) (pre : List Node) :
    ∀ (s : σ) (links : List Link) (hs : List Bytes) (s1 : σ) (rest : List Node),
      ChildrenSaved store s pre hs s1 →
      saveChildren store s links (pre ++ rest) =
        saveChildren store s1 (links ++ childLinks pre hs) rest := by
  induction pre with
  | nil =>
    intro s links hs s1 rest h
    cases hs with
    | nil => simp [ChildrenSaved] at h; simp [childLinks, h]
    | cons _ _ => simp [ChildrenSaved] at h
  | cons c cs ih =>
    intro s links hs s1 rest h
    cases hs with
    | nil => simp [ChildrenSaved] at h
    | cons x hs =>
      obtain ⟨he, hx, hrest⟩ := h
      rw [List.cons_append, saveChildren]
      rcases hr : saveNode store s c with ⟨s2, y, err⟩
      rw [hr] at he hx hrest
      simp only at he hx hrest
      subst he hx
      simp only []
      rw [ih s2 _ hs s1 rest hrest]
      simp [childLinks, List.append_assoc]

theorem saveDir_child_fails {σ ε : Type} (store : KVStore σ ε) (s s1 : σ) (name : Bytes)
    (pre post : List Node) (c : Node) (hs : List Bytes)
    (hpre : ChildrenSaved store s pre hs s1) (hc : (saveNode store s1 c).2.2 ≠ none) :
    saveDir store s (.mk name (pre ++ c :: post)) =
      ((saveNode store s1 c).1, [], (saveNode store s1 c).2.2) := by
  rw [saveDir, saveChildren_append store pre s [] hs s1 _ hpre, saveChildren]
  rcases hr : saveNode store s1 c with ⟨s2, y, _ | err⟩
  · rw [hr] at hc; exact absurd rfl hc
  · rfl

/-- C11: whenever some `Put` fails while `saveNode` runs on the root of a tree, `saveNode`
returns no hash and the error of the first failing `Put`, whatever the depth of the tree. -/
theorem C11_first_failing_put (σ ε : Type) (store : KVStore σ ε) (s : σ) (root : Node) (e : ε)
    (h : ((saveNode (logging store) (s, []) root).1.2.filterMap (fun c => c.2.2)).head? =
      some e) :
    (saveNode store s root).2 = ([], some (Error.put e)) := by
  rw [saveNode_logging] at h
  simp only [List.nil_append, putLog_errors] at h
  rw [saveNode_plan]
  rcases hr : runPuts store s (nodePlan root).1 with ⟨s1, _ | err⟩
  · rw [hr] at h; simp at h
  · rw [hr] at h
    simp at h
    subst h
    rfl

theorem C11_first_failing_put_witness :
    ((saveNode (logging refusingStore) ([hashData sampleFile.Data], []) nestedTree).1.2.filterMap
        (fun c => c.2.2)).head? = some "refused" ∧
      (saveNode refusingStore [hashData sampleFile.Data] nestedTree).2 =
        ([], some (Error.put "refused")) :=
  ⟨by decide, C11_first_failing_put _ _ refusingStore _ nestedTree "refused" (by decide)⟩

/-- C12: in the calls `saveNode` makes, every `Put` before the last one succeeded, so a
failed `Put` is the last call; the calls are a prefix of those of the run on a store that
accepts every `Put`; and when a child of a directory fails, with a `Put` error or as a node
of unknown type, after its earlier siblings were persisted, `saveDir` stops in the store
state that child left and returns its error: no later sibling and no directory object is
written. -/
theorem C12_no_put_after_failure (σ ε : Type) (store : KVStore σ ε) (s : σ) (root : Node) :
    (∀ c ∈ (saveNode (logging store) (s, []) root).1.2.dropLast, c.2.2 = none) ∧
    ((saveNode (logging store) (s, []) root).1.2.map (fun c => (c.1, c.2.1)) <+:
      (saveNode (logging (acceptingStore ε)) ((), []) root).1.2.map (fun c => (c.1, c.2.1))) ∧
    (∀ (name : Bytes) (pre post : List Node) (c : Node) (hs : List Bytes) (s1 : σ),
      ChildrenSaved store s pre hs s1 → (saveNode store s1 c).2.2 ≠ none →
      saveDir store s (.mk name (pre ++ c :: post)) =
        ((saveNode store s1 c).1, [], (saveNode store s1 c).2.2)) := by
  refine ⟨?_, ?_, ?_⟩
  · rw [saveNode_logging]
    simpa using putLog_dropLast store (nodePlan root).1 s
  · rw [saveNode_logging, saveNode_logging]
    have hok : putLog (acceptingStore ε) () (nodePlan root).1 =
        (nodePlan root).1.map (fun w => (w.1, w.2, none)) := by
      apply putLog_of_ok
      generalize (nodePlan root).1 = ws
      induction ws with
      | nil => rfl
      | cons x ws ih => obtain ⟨k, v⟩ := x; simpa [runPuts, acceptingStore] using ih
    simp only [List.nil_append, hok, List.map_map]
    have : ((fun c : Bytes × Bytes × Option ε => (c.1, c.2.1)) ∘
        fun w : Bytes × Bytes => (w.1, w.2, (none : Option ε))) = id := by
      funext w; rfl
    rw [this, List.map_id]
    exact putLog_prefix store _ s
  · intro name pre post c hs s1 hpre hc
    exact saveDir_child_fails store s s1 name pre post c hs hpre hc

/-! ## The plan of a tree without unknown nodes -/

mutual
theorem nodePlan_ok :
    ∀ (n : Node) (h : Bytes), (nodePlan n).2 = .ok h →
      nodePlan n = (Spec.writes n, .ok (Spec.nodeHash n))
  | .file f, h, _ => by simp [nodePlan, Spec.writes, Spec.nodeHash]
  | .dir d, h, hok => by
    rw [nodePlan] at hok ⊢
    rw [Spec.writes, Spec.nodeHash]
    exact dirPlan_ok d h hok
  | .unknown _ _, h, hok => by simp [nodePlan] at hok
theorem dirPlan_ok :
    ∀ (d : Dir) (h : Bytes), (dirPlan d).2 = .ok h →
      dirPlan d = (Spec.dirWrites d, .ok (Spec.dirHash d))
  | .mk name it, h, hok => by
    rw [dirPlan] at hok ⊢
    rcases hc : childrenPlan [] it with ⟨ws, goType | ls⟩
    · rw [hc] at hok; simp at hok
    · have := childrenPlan_ok it [] ls (by rw [hc])
      rw [hc] at this
      simp only [Prod.mk.injEq, Except.ok.injEq, List.nil_append] at this
      obtain ⟨hws, hls⟩ := this
      subst hws hls
      simp [Spec.dirWrites, Spec.dirHash, MarshalBinary_eq]
theorem childrenPlan_ok :
    ∀ (cs : List Node) (acc ls : List Link), (childrenPlan acc cs).2 = .ok ls →
      childrenPlan acc cs = (Spec.childrenWrites cs, .ok (acc ++ Spec.links cs))
  | [], acc, ls, _ => by simp [childrenPlan, Spec.childrenWrites, Spec.links]
  | child :: rest, acc, ls, hok => by
    rw [childrenPlan] at hok ⊢
    rcases hn : nodePlan child with ⟨ws, goType | childHash⟩
    · rw [hn] at hok; simp at hok
    · have h1 := nodePlan_ok child childHash (by rw [hn])
      rw [hn] at h1
      simp only [Prod.mk.injEq, Except.ok.injEq] at h1
      obtain ⟨hws, hh⟩ := h1
      subst hws hh
      rw [hn] at hok
      simp only [] at hok ⊢
      have h2 := childrenPlan_ok rest _ ls hok
      rw [h2]
      simp [Spec.childrenWrites, Spec.links, List.append_assoc]
end

theorem nodeHash_length_of_plan (n : Node) (h : Bytes) (hok : (nodePlan n).2 = .ok h) :
    (Spec.nodeHash n).length = 32 := by
  cases n with
  | file f => simp [Spec.nodeHash, hashData_eq, sum256_length]
  | dir d =>
    cases d with
    | mk name it => simp [Spec.nodeHash, Spec.dirHash, hashData_eq, sum256_length]
  | unknown _ _ => simp [nodePlan] at hok

/-- What a successful `saveNode` did: it returned the hash of the node and issued, each with
success, the writes of every node of the tree. -/
theorem saveNode_ok {σ ε : Type} (store : KVStore σ ε) (s : σ) (n : Node)
    (h : (saveNode store s n).2.2 = none) :
    (saveNode store s n).2.1 = Spec.nodeHash n ∧ (Spec.nodeHash n).length = 32 ∧
      nodePlan n = (Spec.writes n, .ok (Spec.nodeHash n)) ∧
      (runPuts store s (Spec.writes n)).2 = none := by
  rw [saveNode_plan] at h ⊢
  rcases hp : (nodePlan n).2 with goType | hash
  · rw [hp] at h
    rcases hr : runPuts store s (nodePlan n).1 with ⟨s1, _ | err⟩ <;> rw [hr] at h <;>
      simp [finish] at h
  · have hpl := nodePlan_ok n hash hp
    have hlen := nodeHash_length_of_plan n hash hp
    have hh : hash = Spec.nodeHash n := by rw [hpl] at hp; simpa using hp.symm
    rw [hp] at h
    rcases hr : runPuts store s (nodePlan n).1 with ⟨s1, _ | err⟩
    · refine ⟨?_, hlen, hpl, ?_⟩
      · rw [hh]; rfl
      · rw [hpl] at hr; simpa using congrArg Prod.snd hr
    · rw [hr] at h; simp [finish] at h

/-- When `saveNode` fails it returns no hash. -/
theorem saveNode_error {σ ε : Type} (store : KVStore σ ε) (s : σ) (n : Node)
    (h : (saveNode store s n).2.2 ≠ none) : (saveNode store s n).2.1 = [] := by
  rw [saveNode_plan] at h ⊢
  rcases hr : runPuts store s (nodePlan n).1 with ⟨s1, _ | err⟩
  · rcases hp : (nodePlan n).2 with goType | hash
    · rfl
    · rw [hr, hp] at h; simp [finish] at h
  · rfl

/-- C13 (as stated) fails: `Add` has no error result; two runs that fail with different
errors return the same value to the caller. -/
theorem C13_counterexample :
    (saveNode (failingStore "disk full") () helloWorld).2.2 = some (Error.put "disk full") ∧
    (saveNode (failingStore "timeout") () helloWorld).2.2 = some (Error.put "timeout") ∧
    Add (failingStore "disk full") () helloWorld sha256New =
      Add (failingStore "timeout") () helloWorld sha256New := by
  refine ⟨by decide, by decide, ?_⟩
  rw [Add_eq, Add_eq]
  exact Prod.ext (by decide) (Prod.ext rfl (by decide))

/-- C13 (amended): when `saveNode` succeeds on the root, `Add` returns the hash of the root,
a 32-byte digest, and the calls made are, each with success, one `Put` for every node of the
tree, children before their parent; when `saveNode` fails, `Add` returns the empty byte
sequence and not the error. -/
theorem C13_Add_outcome (σ ε : Type) (store : KVStore σ ε) (s : σ) (root : Node) (h : Hasher) :
    ((saveNode store s root).2.2 = none →
      (Add store s root h).2.2 = Spec.nodeHash root ∧
      (Add store s root h).2.2.length = 32 ∧
      (Add (logging store) (s, []) root h).1.2 =
        (Spec.writes root).map (fun w => (w.1, w.2, none))) ∧
    ((saveNode store s root).2.2 ≠ none → (Add store s root h).2.2 = []) := by
  constructor
  · intro hok
    obtain ⟨h1, h2, h3, h4⟩ := saveNode_ok store s root hok
    rw [Add_eq, Add_eq, saveNode_logging, h3]
    simp only [List.nil_append]
    refine ⟨h1, by rw [h1]; exact h2, putLog_of_ok store _ s h4⟩
  · intro herr
    rw [Add_eq]
    exact saveNode_error store s root herr

/-! ## Unknown nodes, equal contents, and the result of `Add` -/

theorem saveChildren_unknown {σ ε : Type} (store : KVStore σ ε) (uname : Bytes)
    (goType : String) (post : List Node) (pre : List Node) :
    ∀ (s : σ) (links : List Link),
      (saveChildren store s links (pre ++ .unknown uname goType :: post)).2.2 ≠ none := by
  induction pre with
  | nil =>
    intro s links
    simp [saveChildren, saveNode]
  | cons c cs ih =>
    intro s links
    rw [List.cons_append, saveChildren]
    rcases hr : saveNode store s c with ⟨s2, y, _ | err⟩
    · exact ih s2 _
    · simp

theorem saveDir_of_children_error {σ ε : Type} (store : KVStore σ ε) (s : σ) (name : Bytes)
    (it : List Node) (h : (saveChildren store s [] it).2.2 ≠ none) :
    saveDir store s (.mk name it) =
      ((saveChildren store s [] it).1, [], (saveChildren store s [] it).2.2) := by
  rw [saveDir]
  rcases hr : saveChildren store s [] it with ⟨s1, links, _ | err⟩
  · rw [hr] at h; exact absurd rfl h
  · rfl

/-- C14 (as stated) fails: in a directory whose first child is a file and whose second
child is of unknown type, on a store whose `Put` fails, `saveDir` fails with the error of
the `Put` for the file, not with the unknown-node-type error. -/
theorem C14_counterexample :
    saveDir (failingStore "down") () mixedDir = ((), [], some (Error.put "down")) ∧
    (saveDir (failingStore "down") () mixedDir).2.2 ≠
      some (Error.unknownNodeType "*main.Symlink") := by
  decide

/-- C14 (amended): on a node that is neither a File nor a Dir `saveNode` fails with the
unknown-node-type error and makes no `Put`; a directory with such a node among its
children never yields a hash: `saveDir` fails with the error of its child loop and leaves
the store as that loop left it, writing no directory object; and when the children before
that node were persisted, the error is the unknown-node-type error of that node. -/
theorem C14_unknown_node (σ ε : Type) (store : KVStore σ ε) (s : σ) (uname : Bytes)
    (goType : String) :
    saveNode store s (.unknown uname goType) = (s, [], some (Error.unknownNodeType goType)) ∧
    (saveNode (logging store) (s, []) (.unknown uname goType)).1.2 = [] ∧
    (∀ (dname : Bytes) (pre post : List Node),
      (saveChildren store s [] (pre ++ .unknown uname goType :: post)).2.2 ≠ none ∧
      saveDir store s (.mk dname (pre ++ .unknown uname goType :: post)) =
        ((saveChildren store s [] (pre ++ .unknown uname goType :: post)).1, [],
          (saveChildren store s [] (pre ++ .unknown uname goType :: post)).2.2)) ∧
    (∀ (dname : Bytes) (pre post : List Node) (hs : List Bytes) (s1 : σ),
      ChildrenSaved store s pre hs s1 →
      saveDir store s (.mk dname (pre ++ .unknown uname goType :: post)) =
        (s1, [], some (Error.unknownNodeType goType))) := by
  refine ⟨by simp [saveNode], by simp [saveNode], ?_, ?_⟩
  · intro dname pre post
    have h := saveChildren_unknown store uname goType post pre s []
    exact ⟨h, saveDir_of_children_error store s dname _ h⟩
  · intro dname pre post hs s1 hpre
    rw [saveDir_child_fails store s s1 dname pre post _ hs hpre (by simp [saveNode])]
    simp [saveNode]

theorem saveFile_recording {σ ε : Type} (store : KVStore σ ε) (s : σ)
    (log : List (Bytes × Bytes)) (f : File) :
    (saveFile (recording store) (s, log) f).1.2 = log ++ [(hashData f.Data, f.Data)] := by
  unfold saveFile recording
  rcases hp : store.Put s (hashData f.Data) f.Data with ⟨s1, _ | e⟩ <;> simp [hp]

/-- C16: two files with equal content behave alike under `saveFile`, whatever their names:
from the same store state the whole outcome is the same, from any two states the hashes
returned on success are the same, each issues the `Put` with the digest of the content as
key and the content as value, and on the map store persisting the second after the first
changes nothing and leaves one entry under that key. -/
theorem C16_content_addressing (σ ε : Type) (store : KVStore σ ε) (s : σ)
    (m : List (Bytes × Bytes)) (f1 f2 : File) (h : f1.Data = f2.Data) :
    saveFile store s f1 = saveFile store s f2 ∧
    (∀ t : σ, (saveFile store s f1).2.2 = none → (saveFile store t f2).2.2 = none →
      (saveFile store s f1).2.1 = (saveFile store t f2).2.1) ∧
    (∀ t : σ, (saveFile (recording store) (s, []) f1).1.2 = [(hashData f1.Data, f1.Data)] ∧
      (saveFile (recording store) (t, []) f2).1.2 = [(hashData f1.Data, f1.Data)]) ∧
    (saveFile mapStore (saveFile mapStore m f1).1 f2).1 = (saveFile mapStore m f1).1 ∧
    (saveFile mapStore (saveFile mapStore m f1).1 f2).1.filter
        (fun e => e.1 = hashData f1.Data) = [(hashData f1.Data, f1.Data)] := by
  refine ⟨?_, ?_, ?_, ?_, ?_⟩
  · simp only [saveFile, h]
  · intro t h1 h2
    simp only [saveFile, h] at h1 h2 ⊢
    rcases hp : store.Put s (hashData f2.Data) f2.Data with ⟨s1, _ | e1⟩ <;>
      rcases hq : store.Put t (hashData f2.Data) f2.Data with ⟨t1, _ | e2⟩ <;>
      simp_all
  · intro t
    rw [saveFile_recording, saveFile_recording, h]
    exact ⟨rfl, rfl⟩
  · simp [saveFile, mapStore, h, List.filter_append, List.filter_filter]
  · simp [saveFile, mapStore, h, List.filter_append, List.filter_filter]

theorem C16_content_addressing_witness :
    sampleFile.Data = sampleFileCopy.Data ∧
      saveFile mapStore [] sampleFile = saveFile mapStore [] sampleFileCopy :=
  ⟨by decide, (C16_content_addressing _ _ mapStore [] [] sampleFile sampleFileCopy (by decide)).1⟩

/-- C18: when `saveNode` on the root succeeds with hash `r`, `Add` returns `r`: the Merkle
step runs on the one-element sequence `[r]` and passes `r` through, leaving the hasher as it
was, so the result is the same for every hasher. -/
theorem C18_Add_passthrough (σ ε : Type) (store : KVStore σ ε) (s : σ) (root : Node)
    (h : Hasher) (r : Bytes) (hok : (saveNode store s root).2 = (r, none)) :
    (Add store s root h).2.2 = r ∧ (Add store s root h).2.1 = h ∧
      buildMerkleTree [r] h = (r, h) ∧
      ∀ h2 : Hasher, (Add store s root h2).2.2 = (Add store s root h).2.2 := by
  refine ⟨?_, ?_, buildMerkleTree_one r h, ?_⟩
  · rw [Add_eq, hok]
  · rw [Add_eq]
  · intro h2
    rw [Add_eq, Add_eq]

theorem C18_Add_passthrough_witness :
    (saveNode mapStore [] (.file sampleFile)).2 = (hashData sampleFile.Data, none) ∧
      (Add mapStore [] (.file sampleFile) sha256New).2.2 = hashData sampleFile.Data :=
  ⟨by decide,
    (C18_Add_passthrough _ _ mapStore [] (.file sampleFile) sha256New
      (hashData sampleFile.Data) (by decide)).1⟩

theorem buildMerkleTree_head (a b c : Bytes) (t : List Bytes) (h : Hasher) :
    buildMerkleTree (a :: c :: t) h = buildMerkleTree (b :: c :: t) h := by
  have hl : ∀ (x : Bytes) (u : List Bytes) (n : Nat),
      levelLoop (n + 1) (x :: c :: u) h = levelLoop n (pairLoop (a :: c :: u) h []).1
        (pairLoop (a :: c :: u) h []).2 := by
    intro x u n
    rw [levelLoop, if_pos (by simp)]
    simp [pairLoop]
  unfold buildMerkleTree
  simp only [List.length_cons, Nat.add_eq_zero, one_ne_zero, and_false, if_false]
  rw [padLoop_succ, padLoop_succ]
  simp only [List.length_cons]
  split
  · simp only [List.cons_append, List.length_cons]
    rw [hl a, hl b]
  · simp only [List.length_cons]
    rw [hl a, hl b]

/-- C19: two sequences of the same length, at least two, that agree at every index but 0
have the same Merkle root, for every hasher. -/
theorem C19_index_zero_ignored (xs ys : List Bytes) (h : Hasher)
    (hlen : xs.length = ys.length) (hn : 2 ≤ xs.length)
    (hrest : ∀ i : Nat, 0 < i → xs[i]? = ys[i]?) :
    (buildMerkleTree xs h).1 = (buildMerkleTree ys h).1 := by
  match xs, ys, hlen, hn, hrest with
  | a :: c :: t, b :: d :: u, _, _, hrest =>
    have ht : c :: t = d :: u := by
      apply List.ext_getElem?
      intro i
      have := hrest (i + 1) (Nat.succ_pos i)
      simpa using this
    rw [← ht, buildMerkleTree_head a b c t h]

theorem C19_index_zero_ignored_witness :
    ([[1], [2], [3]] : List Bytes).length = ([[9], [2], [3]] : List Bytes).length ∧
      (buildMerkleTree [[1], [2], [3]] sha256New).1 =
        (buildMerkleTree [[9], [2], [3]] sha256New).1 :=
  ⟨by decide,
    C19_index_zero_ignored [[1], [2], [3]] [[9], [2], [3]] sha256New (by decide) (by decide)
      (by intro i hi; match i, hi with
          | 1, _ => rfl
          | 2, _ => rfl
          | n + 3, _ => rfl)⟩

/-- C20: `Add` returns the empty byte sequence exactly when `saveNode` on the root fails,
every digest of `hashData` being non-empty; on failure the result is empty whatever the
error was, and the error is not part of what `Add` returns. -/
theorem C20_Add_empty_iff (σ ε : Type) (store : KVStore σ ε) (s : σ) (root : Node)
    (h : Hasher) :
    ((Add store s root h).2.2 = [] ↔ (saveNode store s root).2.2 ≠ none) ∧
    (∀ data : Bytes, hashData data ≠ []) ∧
    (∀ e : Error ε, (saveNode store s root).2.2 = some e →
      Add store s root h = ((saveNode store s root).1, h, [])) := by
  refine ⟨?_, ?_, ?_⟩
  · rw [Add_eq]
    constructor
    · intro hempty hok
      obtain ⟨h1, h2, _, _⟩ := saveNode_ok store s root hok
      simp only [] at hempty
      rw [h1] at hempty
      rw [hempty] at h2
      simp at h2
    · intro herr
      exact saveNode_error store s root herr
  · intro data he
    have := sum256_length data
    rw [← hashData_eq, he] at this
    simp at this
  · intro e he
    rw [Add_eq, saveNode_error store s root (by rw [he]; simp)]

/-! ## Order of the children -/

theorem ChildrenSaved_hashes {σ ε : Type} (store : KVStore σ ε) (cs : List Node) :
    ∀ (s : σ) (hs : List Bytes) (s1 : σ), ChildrenSaved store s cs hs s1 →
      hs.length = cs.length ∧ ∀ x ∈ hs, x.length = 32 := by
  induction cs with
  | nil =>
    intro s hs s1 h
    cases hs with
    | nil => simp
    | cons _ _ => simp [ChildrenSaved] at h
  | cons c cs ih =>
    intro s hs s1 h
    cases hs with
    | nil => simp [ChildrenSaved] at h
    | cons x hs =>
      obtain ⟨he, hx, hrest⟩ := h
      obtain ⟨h1, h2, _, _⟩ := saveNode_ok store s c he
      obtain ⟨hl, hall⟩ := ih _ hs s1 hrest
      refine ⟨by simp [hl], ?_⟩
      intro y hy
      rcases List.mem_cons.mp hy with hy | hy
      · rw [hy, ← hx, h1]; exact h2
      · exact hall y hy

theorem childLinks_names (cs : List Node) :
    ∀ hs : List Bytes, hs.length = cs.length →
      (childLinks cs hs).map Link.Name = cs.map Node.Name := by
  induction cs with
  | nil => intro hs _; simp [childLinks]
  | cons c cs ih =>
    intro hs hl
    cases hs with
    | nil => simp at hl
    | cons x hs =>
      have := ih hs (by simpa using hl)
      simp only [childLinks] at this
      simp [childLinks, this]

theorem childLinks_length (cs : List Node) (hs : List Bytes) (hl : hs.length = cs.length) :
    (childLinks cs hs).length = cs.length := by
  simp [childLinks, hl]

theorem childLinks_wellFormed (cs : List Node) :
    ∀ hs : List Bytes, (∀ c ∈ cs, c.Name.length < 2147483648) → (∀ x ∈ hs, x.length = 32) →
      ∀ l ∈ childLinks cs hs, l.WellFormed := by
  induction cs with
  | nil => intro hs _ _ l hl; simp [childLinks] at hl
  | cons c cs ih =>
    intro hs hn hh l hl
    cases hs with
    | nil => simp [childLinks] at hl
    | cons x hs =>
      simp only [childLinks, List.zipWith_cons_cons, List.mem_cons] at hl
      rcases hl with hl | hl
      · have hx := hh x (List.mem_cons_self _ _)
        have hc := hn c (List.mem_cons_self _ _)
        subst hl
        refine ⟨hc, ?_, ?_, ?_⟩ <;> simp only [hx] <;> omega
      · exact ih hs (fun c hc => hn c (List.mem_cons_of_mem _ hc))
          (fun y hy => hh y (List.mem_cons_of_mem _ hy)) l hl

theorem int32BE_length (n : Int) : (Spec.int32BE n).length = 4 := by
  simp [Spec.int32BE]

theorem encode_links_inj (l1 l2 : List Link) (d1 d2 : Bytes) (hl : l1.length = l2.length)
    (h1 : ∀ l ∈ l1, l.WellFormed) (h2 : ∀ l ∈ l2, l.WellFormed)
    (h : Spec.encode { Links := l1, Data := d1 } = Spec.encode { Links := l2, Data := d2 }) :
    l1 = l2 := by
  simp only [Spec.encode, List.append_assoc] at h
  have hr := List.append_inj_right h (by rw [int32BE_length, int32BE_length])
  have e1 := readLinks_encode l1 (Spec.int32BE d1.length ++ d1) h1
  have e2 := readLinks_encode l2 (Spec.int32BE d2.length ++ d2) h2
  rw [hr, hl, e2] at e1
  simp only [Option.some.injEq, Prod.mk.injEq] at e1
  exact e1.1.symm

theorem map_eq_of_inj {α β : Type} (f : α → β) (l1 : List α) :
    ∀ l2 : List α, (∀ x ∈ l1, ∀ y ∈ l2, f x = f y → x = y) → l1.map f = l2.map f →
      l1 = l2 := by
  induction l1 with
  | nil => intro l2 _ h; cases l2 with
    | nil => rfl
    | cons _ _ => simp at h
  | cons a l1 ih =>
    intro l2 hinj h
    cases l2 with
    | nil => simp at h
    | cons b l2 =>
      simp only [List.map_cons, List.cons.injEq] at h
      have hab := hinj a (List.mem_cons_self _ _) b (List.mem_cons_self _ _) h.1
      have := ih l2 (fun x hx y hy => hinj x (List.mem_cons_of_mem _ hx) y
        (List.mem_cons_of_mem _ hy)) h.2
      rw [hab, this]

theorem ChildrenSaved_logging {σ ε : Type} (store : KVStore σ ε) (cs : List Node) :
    ∀ (s : σ) (hs : List Bytes) (s1 : σ) (log : List (Bytes × Bytes × Option ε)),
      ChildrenSaved store s cs hs s1 →
      ∃ log1, ChildrenSaved (logging store) (s, log) cs hs (s1, log1) := by
  induction cs with
  | nil =>
    intro s hs s1 log h
    cases hs with
    | nil =>
      simp only [ChildrenSaved] at h
      exact ⟨log, by simp [ChildrenSaved, h]⟩
    | cons _ _ => simp [ChildrenSaved] at h
  | cons c cs ih =>
    intro s hs s1 log h
    cases hs with
    | nil => simp [ChildrenSaved] at h
    | cons x hs =>
      obtain ⟨he, hx, hrest⟩ := h
      obtain ⟨log1, hl⟩ := ih _ hs s1 (log ++ putLog store s (nodePlan c).1) hrest
      refine ⟨log1, ?_⟩
      simp only [ChildrenSaved, saveNode_logging]
      exact ⟨he, hx, hl⟩

/-- After its children were persisted, the last call `saveDir` makes is the `Put` of the
encoded directory Object under its digest. -/
theorem saveDir_logging_last {σ ε : Type} (store : KVStore σ ε) (s s1 : σ) (name : Bytes)
    (cs : List Node) (hs : List Bytes) (h : ChildrenSaved store s cs hs s1) :
    ((saveDir (logging store) (s, []) (.mk name cs)).1.2.getLast?).map
        (fun c => (c.1, c.2.1)) =
      some (hashData (MarshalBinary { Links := childLinks cs hs, Data := [] }).1,
        (MarshalBinary { Links := childLinks cs hs, Data := [] }).1) := by
  obtain ⟨log1, hl⟩ := ChildrenSaved_logging store cs s hs s1 [] h
  rw [saveDir, saveChildren_of_saved (logging store) cs (s, []) [] hs (s1, log1) hl]
  simp only [List.nil_append, MarshalBinary_eq, logging_Put]
  rcases hp : store.Put s1 (hashData (Spec.encode { Links := childLinks cs hs, Data := [] }))
    (Spec.encode { Links := childLinks cs hs, Data := [] }) with ⟨s2, _ | e⟩ <;> simp

/-- After its children were persisted, a `saveDir` that succeeds returns the digest of the
encoded directory Object. -/
theorem saveDir_ok_hash {σ ε : Type} (store : KVStore σ ε) (s s1 : σ) (name : Bytes)
    (cs : List Node) (hs : List Bytes) (h : ChildrenSaved store s cs hs s1)
    (hok : (saveDir store s (.mk name cs)).2.2 = none) :
    (saveDir store s (.mk name cs)).2.1 =
      hashData (MarshalBinary { Links := childLinks cs hs, Data := [] }).1 := by
  rw [saveDir, saveChildren_of_saved store cs s [] hs s1 h] at hok ⊢
  simp only [List.nil_append, MarshalBinary_eq] at hok ⊢
  rcases hp : store.Put s1 (hashData (Spec.encode { Links := childLinks cs hs, Data := [] }))
    (Spec.encode { Links := childLinks cs hs, Data := [] }) with ⟨s2, _ | e⟩
  · rfl
  · rw [hp] at hok; simp at hok

/-- C15: for a directory whose children have pairwise distinct names, each shorter than
`2^31` bytes, and any other order of the same children, when the children are persisted in
either order the last call `saveDir` makes is the `Put` of the encoded directory Object
under its digest, the encoded bytes of the two orders differ, and so do the values of those
two calls; when both calls of `saveDir` succeed and the digest does not collide on the two
encodings, the directory hashes they return differ. -/
theorem C15_order_sensitive (σ ε : Type) (store : KVStore σ ε) (s s1 t t1 : σ) (name : Bytes)
    (cs cs2 : List Node) (hs hs2 : List Bytes)
    (hnames : (cs.map Node.Name).Nodup) (hshort : ∀ c ∈ cs, c.Name.length < 2147483648)
    (hperm : cs2.Perm cs) (hne : cs2 ≠ cs)
    (h1 : ChildrenSaved store s cs hs s1) (h2 : ChildrenSaved store t cs2 hs2 t1) :
    ((saveDir (logging store) (s, []) (.mk name cs)).1.2.getLast?).map
        (fun c => (c.1, c.2.1)) =
      some (hashData (MarshalBinary { Links := childLinks cs hs, Data := [] }).1,
        (MarshalBinary { Links := childLinks cs hs, Data := [] }).1) ∧
    ((saveDir (logging store) (t, []) (.mk name cs2)).1.2.getLast?).map
        (fun c => (c.1, c.2.1)) =
      some (hashData (MarshalBinary { Links := childLinks cs2 hs2, Data := [] }).1,
        (MarshalBinary { Links := childLinks cs2 hs2, Data := [] }).1) ∧
    (MarshalBinary { Links := childLinks cs2 hs2, Data := [] }).1 ≠
      (MarshalBinary { Links := childLinks cs hs, Data := [] }).1 ∧
    ((saveDir (logging store) (t, []) (.mk name cs2)).1.2.getLast?).map (fun c => c.2.1) ≠
      ((saveDir (logging store) (s, []) (.mk name cs)).1.2.getLast?).map (fun c => c.2.1) ∧
    ((saveDir store s (.mk name cs)).2.2 = none → (saveDir store t (.mk name cs2)).2.2 = none →
      (hashData (MarshalBinary { Links := childLinks cs2 hs2, Data := [] }).1 =
          hashData (MarshalBinary { Links := childLinks cs hs, Data := [] }).1 →
        (MarshalBinary { Links := childLinks cs2 hs2, Data := [] }).1 =
          (MarshalBinary { Links := childLinks cs hs, Data := [] }).1) →
      (saveDir store t (.mk name cs2)).2.1 ≠ (saveDir store s (.mk name cs)).2.1) := by
  have key : (MarshalBinary { Links := childLinks cs2 hs2, Data := [] }).1 ≠
      (MarshalBinary { Links := childLinks cs hs, Data := [] }).1 := by
    rw [MarshalBinary_eq, MarshalBinary_eq]
    intro he
    obtain ⟨hl1, hx1⟩ := ChildrenSaved_hashes store cs s hs s1 h1
    obtain ⟨hl2, hx2⟩ := ChildrenSaved_hashes store cs2 t hs2 t1 h2
    have hshort2 : ∀ c ∈ cs2, c.Name.length < 2147483648 :=
      fun c hc => hshort c (hperm.mem_iff.mp hc)
    have hlinks := encode_links_inj _ _ _ _
      (by rw [childLinks_length _ _ hl2, childLinks_length _ _ hl1, hperm.length_eq])
      (childLinks_wellFormed cs2 hs2 hshort2 hx2) (childLinks_wellFormed cs hs hshort hx1) he
    have hn := congrArg (List.map Link.Name) hlinks
    rw [childLinks_names _ _ hl2, childLinks_names _ _ hl1] at hn
    apply hne
    apply map_eq_of_inj Node.Name cs2 cs _ hn
    intro x hx y hy hxy
    exact List.inj_on_of_nodup_map hnames (hperm.mem_iff.mp hx) hy hxy
  have l1 := saveDir_logging_last store s s1 name cs hs h1
  have l2 := saveDir_logging_last store t t1 name cs2 hs2 h2
  refine ⟨l1, l2, key, ?_, ?_⟩
  · intro he
    have e1 := congrArg (Option.map Prod.snd) l1
    have e2 := congrArg (Option.map Prod.snd) l2
    simp only [Option.map_map, Option.map_some'] at e1 e2
    have hf : (Prod.snd ∘ fun c : Bytes × Bytes × Option ε => (c.1, c.2.1)) =
        fun c => c.2.1 := rfl
    rw [hf] at e1 e2
    rw [e1, e2] at he
    exact key (Option.some.inj he)
  · intro ok1 ok2 hinj hh
    rw [saveDir_ok_hash store s s1 name cs hs h1 ok1,
      saveDir_ok_hash store t t1 name cs2 hs2 h2 ok2] at hh
    exact key (hinj hh)

theorem C15_order_sensitive_witness :
    (twoFiles.map Node.Name).Nodup ∧ twoFilesSwapped.Perm twoFiles ∧
      twoFilesSwapped ≠ twoFiles ∧
      ChildrenSaved mapStore [] twoFiles [hashData [120], hashData [121]]
        [(hashData [120], [120]), (hashData [121], [121])] ∧
      ChildrenSaved mapStore [] twoFilesSwapped [hashData [121], hashData [120]]
        [(hashData [121], [121]), (hashData [120], [120])] ∧
      ((saveDir (logging mapStore) ([], []) (.mk [100] twoFilesSwapped)).1.2.getLast?).map
          (fun c => c.2.1) ≠
        ((saveDir (logging mapStore) ([], []) (.mk [100] twoFiles)).1.2.getLast?).map
          (fun c => c.2.1) := by
  have hnames : (twoFiles.map Node.Name).Nodup := by decide
  have hperm : twoFilesSwapped.Perm twoFiles := List.Perm.swap _ _ _
  have hne : twoFilesSwapped ≠ twoFiles := by
    intro h
    have := congrArg (List.map Node.Name) h
    revert this
    decide
  have hs1 : ChildrenSaved mapStore [] twoFiles [hashData [120], hashData [121]]
      [(hashData [120], [120]), (hashData [121], [121])] := by decide
  have hs2 : ChildrenSaved mapStore [] twoFilesSwapped [hashData [121], hashData [120]]
      [(hashData [121], [121]), (hashData [120], [120])] := by decide
  exact ⟨hnames, hperm, hne, hs1, hs2,
    (C15_order_sensitive _ _ mapStore [] _ [] _ [100] twoFiles twoFilesSwapped _ _ hnames
      (by decide) hperm hne hs1 hs2).2.2.2.1⟩

/-! ## The pool -/

theorem runPool_mem (ops : List PoolOp) :
    ∀ (p : SimpleHashPool), ∀ hasher ∈ runPool p ops,
      hasher = sha256New ∨ hasher ∈ p.pool ∨ hasher ∈ putsOf ops := by
  induction ops with
  | nil => intro p hasher hm; simp [runPool] at hm
  | cons op ops ih =>
    intro p hasher hm
    cases op with
    | get pick =>
      simp only [runPool, List.mem_cons, putsOf] at hm ⊢
      have hget : (p.Get pick).1 = sha256New ∨ (p.Get pick).1 ∈ p.pool := by
        unfold SimpleHashPool.Get
        cases pick with
        | none => left; rfl
        | some i =>
          simp only []
          cases hg : p.pool[i]? with
          | none => left; rfl
          | some x => right; exact List.getElem?_mem hg
      have hsub : ∀ y ∈ (p.Get pick).2.pool, y ∈ p.pool := by
        intro y hy
        unfold SimpleHashPool.Get at hy
        cases pick with
        | none => exact hy
        | some i =>
          simp only [] at hy
          cases hg : p.pool[i]? with
          | none => rw [hg] at hy; exact hy
          | some x => rw [hg] at hy; exact List.mem_of_mem_eraseIdx hy
      rcases hm with hm | hm
      · rw [hm]
        rcases hget with h | h
        · exact Or.inl h
        · exact Or.inr (Or.inl h)
      · rcases ih _ hasher hm with h | h | h
        · exact Or.inl h
        · exact Or.inr (Or.inl (hsub _ h))
        · exact Or.inr (Or.inr h)
    | put x =>
      simp only [runPool, putsOf, List.mem_cons] at hm ⊢
      rcases ih _ hasher hm with h | h | h
      · exact Or.inl h
      · simp only [SimpleHashPool.Put, List.mem_cons] at h
        rcases h with h | h
        · exact Or.inr (Or.inr (Or.inl h))
        · exact Or.inr (Or.inl h)
      · exact Or.inr (Or.inr (Or.inr h))

/-- C17 (as stated) fails: a hasher handed back by `Put` after a byte was written to it
is returned by the next `Get` with that byte still absorbed, and its `Sum` is not the
digest of the empty input. -/
theorem C17_counterexample :
    runPool NewSimpleHashPool [.get none, .put (sha256New.Write [1]), .get (some 0)] =
      [sha256New, sha256New.Write [1]] ∧
    sha256New.Write [1] ≠ sha256New ∧
    (sha256New.Write [1]).Sum [] ≠ hashData [] := by
  refine ⟨rfl, ?_, by decide⟩
  intro h
  have hw := congrArg Hasher.written h
  simp [Hasher.Write, sha256New] at hw

/-- C17 (amended): every hasher `Get` returns is a freshly constructed one or one that a
`Put` handed back, in the state it was handed back in; when every hasher handed back is in
the reset state, every hasher `Get` returns is in the reset state and its `Sum` is the
digest of the empty input. -/
theorem C17_pool_returns (ops : List PoolOp) :
    (∀ hasher ∈ runPool NewSimpleHashPool ops, hasher = sha256New ∨ hasher ∈ putsOf ops) ∧
    ((∀ hasher ∈ putsOf ops, hasher = sha256New) →
      ∀ hasher ∈ runPool NewSimpleHashPool ops,
        hasher = sha256New ∧ hasher.Sum [] = hashData []) := by
  have hmem : ∀ hasher ∈ runPool NewSimpleHashPool ops,
      hasher = sha256New ∨ hasher ∈ putsOf ops := by
    intro hasher hm
    rcases runPool_mem ops NewSimpleHashPool hasher hm with h | h | h
    · exact Or.inl h
    · simp [NewSimpleHashPool] at h
    · exact Or.inr h
  refine ⟨hmem, ?_⟩
  intro hclean hasher hm
  have hc : hasher = sha256New := by
    rcases hmem hasher hm with h | h
    · exact h
    · exact hclean hasher h
  subst hc
  exact ⟨rfl, rfl⟩

end MerkleDag
